import Mathlib

/-!
# Verification of the `rash` Robin Hood hash table

Shallow embedding of `src/rash.c`: an open-addressing hash table with
Robin Hood displacement, bounded probe window (`max_size_shift`), a
probe-window tail on the bucket array, back-shift deletion, a transactional
unwind for failed insertions, and load-factor driven resizing.

Modelling conventions:
* `size_t` is a 64-bit machine word (the source's `#if` on `SIZE_MAX`
  selects the 64-bit Fibonacci multiplier); arithmetic that can wrap is
  taken `% 2^64`.  Quantities whose C counterparts never approach the word
  size under the table's invariants (positions, displacements, sizes) are
  plain `Nat`.
* keys are byte strings: `List Nat` of the bytes strictly before the NUL
  terminator; `strcmp ... == 0` on NUL-terminated null-free strings is list
  equality.
* `void *` payloads are modelled as `Nat` pointer values, `0` playing the
  role of `NULL`.
* Buckets (`struct hash_table_entry **`) are a `List (Option Entry)`;
  `calloc` zero-initialisation gives a list of `none`s.
* malloc success/failure is an explicit `alloc : Bool` parameter: `true`
  means every allocation in the call succeeds, `false` means every
  allocation fails.  (No claim needs a mixed success/failure schedule.)
* the C recursion `insert → resize → rehash → insert` is bounded by an
  explicit fuel; running out of fuel yields `none`, so a `some` result is
  exactly a completed execution of the C code.
* the load-factor comparisons are performed by the source in IEEE
  single-precision `float`; `floatRound` models the conversion of an
  integer to the nearest `float` (round to nearest, ties to even, 24-bit
  significand).  Products `max_size * 0.75f` and `max_size * 0.10f` are
  exact in `float` whenever `max_size` is a power of two (the only values
  it takes), so no rounding step is modelled for them; they are represented
  by the exact rationals `3/4` and `13421773/2^27` (the value of `0.10f`),
  scaled to integer comparisons.
-/

/-- Key bytes: the bytes of the C string before the NUL terminator. -/
abbrev Key := List Nat

/-- A valid C string byte: nonzero and below 256. -/
def ValidKey (k : Key) : Prop := ∀ c ∈ k, 0 < c ∧ c < 256

instance : DecidablePred ValidKey := fun k =>
  inferInstanceAs (Decidable (∀ c ∈ k, 0 < c ∧ c < 256))

/-- `struct hash_table_entry`. -/
structure Entry where
  key : Key
  hash : Nat
  data : Nat
  dist_from_des : Nat
  deriving DecidableEq, Repr

/-- `struct hash_table`. -/
structure Table where
  max_size_shift : Nat
  max_size : Nat
  curr_size : Nat
  buckets : List (Option Entry)
  deriving DecidableEq, Repr

/-- `HASH_TABLE_INITIAL_SHIFT` -/
def HASH_TABLE_INITIAL_SHIFT : Nat := 4

/-- `FIBONACCI_MULTIPLIER` for the 64-bit word branch of the `#if`. -/
def FIBONACCI_MULTIPLIER : Nat := 11400714819323198485

/-- Word width of `size_t`. -/
def WORD_BITS : Nat := 64

/-- `fibonacci_hash`: `(hash * FIBONACCI_MULTIPLIER) >> (64 - bits)` with
64-bit wrap-around multiplication. -/
def fibonacci_hash (hash : Nat) (bits : Nat) : Nat :=
  ((hash * FIBONACCI_MULTIPLIER) % 2 ^ WORD_BITS) >>> (WORD_BITS - bits)

/-- `djb2_hash`: `hash = ((hash << 5) + hash) + c` over the key bytes,
starting at 5381, in 64-bit arithmetic. -/
def djb2_hash (str : Key) : Nat :=
  str.foldl (fun hash c => ((hash <<< 5) + hash + c) % 2 ^ WORD_BITS) 5381

/-- `hash_table_is_next_found`. -/
def hash_table_is_next_found (t : Table) (probe_count : Nat) : Bool :=
  probe_count < t.max_size_shift

/-- `hash_table_get_position`. -/
def hash_table_get_position (t : Table) (key : Key) : Nat :=
  fibonacci_hash (djb2_hash key) t.max_size_shift

/-- `hash_table_should_replace_entry`. -/
def hash_table_should_replace_entry (entry1 entry2 : Entry) : Bool :=
  entry1.dist_from_des > entry2.dist_from_des

/-- `HASH_TABLE_ITERATE_TO_NEXT` with an empty body (as used by
`hash_table_get` and `hash_table_remove`): advance `(position, probe_count)`
while `probe_count < max_size_shift`, the slot is occupied, and its key
differs from `key_value`.  The loop runs at most `max_size_shift`
iterations, so calling with `fuel = max_size_shift` is exact. -/
def iterNext (buckets : List (Option Entry)) (shift : Nat) (key_value : Key) :
    Nat → Nat → Nat → Nat × Nat
  | 0, position, probe_count => (position, probe_count)
  | fuel + 1, position, probe_count =>
    if probe_count < shift then
      match buckets.getD position none with
      | none => (position, probe_count)
      | some e =>
        if e.key = key_value then (position, probe_count)
        else iterNext buckets shift key_value fuel (position + 1) (probe_count + 1)
    else (position, probe_count)

/-- The probe loop of `hash_table_insert`: `HASH_TABLE_ITERATE_TO_NEXT`
over `entry->key` with the Robin Hood swap body.  Returns the mutated
buckets, the final `position` and `probe_count`, and the final carried
entry `rich`. -/
def insertWalk (shift : Nat) (key_value : Key) :
    Nat → List (Option Entry) → Entry → Nat → Nat →
      List (Option Entry) × Nat × Nat × Entry
  | 0, buckets, rich, position, probe_count => (buckets, position, probe_count, rich)
  | fuel + 1, buckets, rich, position, probe_count =>
    if probe_count < shift then
      match buckets.getD position none with
      | none => (buckets, position, probe_count, rich)
      | some current =>
        if current.key = key_value then (buckets, position, probe_count, rich)
        else if hash_table_should_replace_entry rich current then
          insertWalk shift key_value fuel (buckets.set position (some rich))
            { current with dist_from_des := current.dist_from_des + 1 }
            (position + 1) (probe_count + 1)
        else
          insertWalk shift key_value fuel buckets
            { rich with dist_from_des := rich.dist_from_des + 1 }
            (position + 1) (probe_count + 1)
    else (buckets, position, probe_count, rich)

/-- `hash_table_unwind_insertion_changes`, walking from `i` down to 0.
The C stop condition `poor == inserted` is pointer identity; all entries in
the unwound range carry pairwise distinct keys and the inserted entry is
the unique one bearing its key, so pointer identity is key identity.
A `none` slot would be a NULL dereference in C (it cannot occur in the
states the function is called on); it is modelled as a no-swap step. -/
def unwindFrom (inserted : Entry) :
    List (Option Entry) → Entry → Nat → List (Option Entry)
  | buckets, poor, 0 =>
    match buckets.getD 0 none with
    | none => buckets
    | some current =>
      if hash_table_should_replace_entry current
          { poor with dist_from_des := poor.dist_from_des - 1 } then
        buckets.set 0 (some { poor with dist_from_des := poor.dist_from_des - 1 })
      else buckets
  | buckets, poor, i + 1 =>
    match buckets.getD (i + 1) none with
    | none =>
      if poor.key = inserted.key then buckets
      else unwindFrom inserted buckets
        { poor with dist_from_des := poor.dist_from_des - 1 } i
    | some current =>
      if hash_table_should_replace_entry current
          { poor with dist_from_des := poor.dist_from_des - 1 } then
        if current.key = inserted.key then
          buckets.set (i + 1) (some { poor with dist_from_des := poor.dist_from_des - 1 })
        else
          unwindFrom inserted
            (buckets.set (i + 1) (some { poor with dist_from_des := poor.dist_from_des - 1 }))
            current i
      else
        if poor.key = inserted.key then buckets
        else unwindFrom inserted buckets
          { poor with dist_from_des := poor.dist_from_des - 1 } i

/-- `hash_table_remove_from_position`'s back-shift loop
(`HASH_TABLE_ITERATE_TO_END`): move displaced entries one slot backward
until an empty slot or a `dist_from_des = 0` entry.  `limit` is
`max_size + max_size_shift`; `fuel = limit` is exact. -/
def backShift (limit : Nat) :
    Nat → List (Option Entry) → Nat → List (Option Entry)
  | 0, buckets, _ => buckets
  | fuel + 1, buckets, position =>
    if position < limit then
      match buckets.getD position none with
      | none => buckets
      | some entry =>
        if entry.dist_from_des = 0 then buckets
        else
          backShift limit fuel
            ((buckets.set (position - 1)
              (some { entry with dist_from_des := entry.dist_from_des - 1 })).set
              position none)
            (position + 1)
    else buckets

/-- `hash_table_remove_from_position` (the caller has already freed the
entry at `position`). -/
def hash_table_remove_from_position (t : Table) (position : Nat) : Bool × Table :=
  let buckets := t.buckets.set position none
  let limit := t.max_size + t.max_size_shift
  (true,
    { t with
      buckets := backShift limit limit buckets (position + 1)
      curr_size := t.curr_size - 1 })

/-- `hash_table_buckets_alloc`: `calloc(sizeof(*buckets), max_size + max_size_shift)`. -/
def hash_table_buckets_alloc (t : Table) : List (Option Entry) :=
  List.replicate (t.max_size + t.max_size_shift) none

/-- Number of halvings needed to bring `n` under `2^24` (the binary
exponent of `n` relative to the 24-bit significand), with structural fuel
so that the kernel can evaluate it; `fuel = 128` covers every `n < 2^128`. -/
def floatExpAux : Nat → Nat → Nat
  | 0, _ => 0
  | fuel + 1, n => if n < 2 ^ 24 then 0 else floatExpAux fuel (n / 2) + 1

/-- Round-to-nearest-even conversion of a nonnegative integer to IEEE
single precision (24-bit significand), returned as the exact integer value
of the resulting float.  Valid for inputs below `2^128` (no overflow);
`size_t` values are below `2^64`. -/
def floatRound (n : Nat) : Nat :=
  if n < 2 ^ 24 then n
  else
    let e := floatExpAux 128 n
    let q := n / 2 ^ e
    let r := n % 2 ^ e
    if 2 * r < 2 ^ e then q * 2 ^ e
    else if 2 ^ e < 2 * r then (q + 1) * 2 ^ e
    else (if q % 2 = 0 then q else q + 1) * 2 ^ e

/-- `hash_table_should_resize_up_factor`:
`curr_size + 1 > max_size * 0.75f`, evaluated in `float`.  `curr_size + 1`
wraps in `size_t` and is rounded to `float`; `max_size * 0.75f` is the
exact value `3 * max_size / 4` whenever `max_size` is a power of two, and
the comparison of the two floats is the comparison of their exact values,
here scaled by 4. -/
def hash_table_should_resize_up_factor (t : Table) : Bool :=
  4 * floatRound ((t.curr_size + 1) % 2 ^ WORD_BITS) > 3 * t.max_size

/-- `hash_table_should_resize_down_factor`:
`false` when `max_size_shift <= HASH_TABLE_INITIAL_SHIFT`, otherwise
`curr_size - 1 < max_size * 0.10f` evaluated in `float`.  `curr_size - 1`
wraps in `size_t` (underflowing to `2^64 - 1` when `curr_size = 0`) and is
rounded to `float`; `max_size * 0.10f` is the exact value
`13421773 * max_size / 2^27` whenever `max_size` is a power of two
(`0.10f = 13421773 / 2^27`), and the float comparison is the comparison of
exact values, here scaled by `2^27`. -/
def hash_table_should_resize_down_factor (t : Table) : Bool :=
  if t.max_size_shift ≤ HASH_TABLE_INITIAL_SHIFT then false
  else
    2 ^ 27 * floatRound ((t.curr_size + (2 ^ WORD_BITS - 1)) % 2 ^ WORD_BITS) <
      13421773 * t.max_size

/-- `hash_table_rehash` with the per-entry insertion delegated to `ins`
(which will be `insertF fuel alloc`); the C code ignores the boolean
result of each insertion, but a fuel-exhausted insertion (`none`)
propagates so that `some` results are exactly completed executions. -/
def rehashGo (ins : Table → Entry → Option (Bool × Table)) :
    Table → List (Option Entry) → Option Table
  | t, [] => some t
  | t, none :: rest => rehashGo ins t rest
  | t, some entry :: rest =>
    match ins t { entry with dist_from_des := 0 } with
    | none => none
    | some (_, t') => rehashGo ins t' rest

/-- `hash_table_resize` with the rehash insertions delegated to `ins`.
On allocation failure (`alloc = false`) the tentative sizes are restored
and the table is returned unchanged with `false`. -/
def resizeGo (ins : Table → Entry → Option (Bool × Table)) (alloc : Bool)
    (t : Table) (shift_amount : Int) : Option (Bool × Table) :=
  let new_shift : Nat := (t.max_size_shift + shift_amount).toNat
  let new_max : Nat :=
    if shift_amount ≥ 0 then t.max_size <<< shift_amount.toNat
    else t.max_size >>> (-shift_amount).toNat
  if alloc then
    let t' : Table :=
      { max_size_shift := new_shift, max_size := new_max, curr_size := 0,
        buckets := List.replicate (new_max + new_shift) none }
    match rehashGo ins t' t.buckets with
    | none => none
    | some t'' => some (true, t'')
  else some (false, t)

/-- `hash_table_insert`.  `fuel` bounds the recursion depth
(`insert → resize → rehash → insert`); every grow step increments the
probe window, so real executions are exactly the `some` results. -/
def insertF : Nat → Bool → Table → Entry → Option (Bool × Table)
  | 0, _, _, _ => none
  | fuel + 1, alloc, t, entry =>
    let position := fibonacci_hash entry.hash t.max_size_shift
    match insertWalk t.max_size_shift entry.key t.max_size_shift
        t.buckets entry position 0 with
    | (buckets, position, probe_count, rich) =>
      let t := { t with buckets := buckets }
      if hash_table_is_next_found t probe_count then
        match t.buckets.getD position none with
        | some _ =>
          -- same key: the displaced occupant is freed, size unchanged
          some (true, { t with buckets := t.buckets.set position (some rich) })
        | none =>
          some (true,
            { t with
              buckets := t.buckets.set position (some rich)
              curr_size := t.curr_size + 1 })
      else
        let t := { t with buckets := unwindFrom entry t.buckets rich (position - 1) }
        match resizeGo (insertF fuel alloc) alloc t 1 with
        | none => none
        | some (false, t') => some (false, t')
        | some (true, t') => insertF fuel alloc t' { entry with dist_from_des := 0 }

/-- `hash_table_resize` proper. -/
def hash_table_resize (fuel : Nat) (alloc : Bool) (t : Table)
    (shift_amount : Int) : Option (Bool × Table) :=
  resizeGo (insertF fuel alloc) alloc t shift_amount

/-- `hash_table_create` (with successful allocation). -/
def hash_table_create : Table :=
  let t : Table :=
    { max_size_shift := HASH_TABLE_INITIAL_SHIFT
      max_size := 1 <<< HASH_TABLE_INITIAL_SHIFT
      curr_size := 0
      buckets := [] }
  { t with buckets := hash_table_buckets_alloc t }

/-- `hash_table_entry_create`: copies the key, stores the digest and the
payload, zero displacement.  Allocation failure is the `alloc = false`
case of `hash_table_add`. -/
def hash_table_entry_create (key : Key) (data : Nat) : Entry :=
  { key := key, hash := djb2_hash key, data := data, dist_from_des := 0 }

/-- `hash_table_add`. -/
def hash_table_add (fuel : Nat) (alloc : Bool) (t : Table) (key : Key)
    (data : Nat) : Option (Bool × Table) :=
  if alloc then
    let new_entry := hash_table_entry_create key data
    if hash_table_should_resize_up_factor t then
      match hash_table_resize fuel alloc t 1 with
      | none => none
      | some (false, t') => some (false, t')
      | some (true, t') => insertF fuel alloc t' new_entry
    else insertF fuel alloc t new_entry
  else
    -- entry allocation fails: `goto error_create`, table untouched
    some (false, t)

/-- The body of `hash_table_remove` after the shrink check. -/
def removeCore (t : Table) (key : Key) : Bool × Table :=
  let position := hash_table_get_position t key
  match iterNext t.buckets t.max_size_shift key t.max_size_shift position 0 with
  | (position, probe_count) =>
    if hash_table_is_next_found t probe_count then
      match t.buckets.getD position none with
      | none => (false, t)
      | some _ => hash_table_remove_from_position t position
    else (false, t)

/-- `hash_table_remove`. -/
def hash_table_remove (fuel : Nat) (alloc : Bool) (t : Table) (key : Key) :
    Option (Bool × Table) :=
  if hash_table_should_resize_down_factor t then
    match hash_table_resize fuel alloc t (-1) with
    | none => none
    | some (false, t') => some (false, t')
    | some (true, t') => some (removeCore t' key)
  else some (removeCore t key)

/-- `hash_table_get`.  Returns the stored `void *` payload, `0` standing
for `NULL`: the function returns `NULL` both when the probe fails and when
the entry's payload is itself `NULL`. -/
def hash_table_get (t : Table) (key : Key) : Nat :=
  let position := hash_table_get_position t key
  match iterNext t.buckets t.max_size_shift key t.max_size_shift position 0 with
  | (position, probe_count) =>
    if hash_table_is_next_found t probe_count then
      match t.buckets.getD position none with
      | some entry => entry.data
      | none => 0
    else 0

/-- `hash_table_get_size`. -/
def hash_table_get_size (t : Table) : Nat := t.curr_size

/-! ## Basic list and arithmetic helpers -/

theorem getD_set_self {l : List (Option Entry)} {i : Nat} {v : Option Entry}
    (h : i < l.length) : (l.set i v).getD i none = v := by
  simp [List.getD, List.getElem?_set, h]

theorem getD_set_other {l : List (Option Entry)} {i j : Nat} {v : Option Entry}
    (h : i ≠ j) : (l.set i v).getD j none = l.getD j none := by
  simp [List.getD, List.getElem?_set, h]

theorem getD_of_length_le {l : List (Option Entry)} {i : Nat}
    (h : l.length ≤ i) : l.getD i none = none := by
  simp [List.getD, List.getElem?_eq_none, h]

theorem lt_length_of_getD_some {l : List (Option Entry)} {i : Nat} {e : Entry}
    (h : l.getD i none = some e) : i < l.length := by
  by_contra hc
  rw [getD_of_length_le (Nat.le_of_not_lt hc)] at h
  exact Option.noConfusion h

theorem set_getD_self {l : List (Option Entry)} {i : Nat} {e : Entry}
    (h : l.getD i none = some e) : l.set i (some e) = l := by
  induction l generalizing i with
  | nil => rfl
  | cons hd tl ih =>
    cases i with
    | zero =>
      simp [List.getD] at h
      simp [h]
    | succ n =>
      simp only [List.getD, List.getElem?_cons_succ] at h
      simp [List.set_cons_succ, ih h]

/-- Number of occupied buckets. -/
def countOcc (bs : List (Option Entry)) : Nat := bs.countP (fun o => o.isSome)

theorem countOcc_set_some {bs : List (Option Entry)} {i : Nat} {e f : Entry}
    (h : bs.getD i none = some e) :
    countOcc (bs.set i (some f)) = countOcc bs := by
  induction bs generalizing i with
  | nil => simp at h
  | cons hd tl ih =>
    cases i with
    | zero =>
      simp only [List.getD, List.getElem?_cons_zero, Option.getD_some] at h
      subst h
      simp [countOcc, List.countP_cons]
    | succ n =>
      simp only [List.getD, List.getElem?_cons_succ] at h
      simp only [List.set_cons_succ, countOcc, List.countP_cons]
      have := ih (i := n) h
      simp only [countOcc] at this
      omega

theorem countOcc_set_none_some {bs : List (Option Entry)} {i : Nat} {f : Entry}
    (hlen : i < bs.length) (h : bs.getD i none = none) :
    countOcc (bs.set i (some f)) = countOcc bs + 1 := by
  induction bs generalizing i with
  | nil => simp at hlen
  | cons hd tl ih =>
    cases i with
    | zero =>
      simp only [List.getD, List.getElem?_cons_zero, Option.getD_some] at h
      subst h
      simp [countOcc, List.countP_cons]
    | succ n =>
      simp only [List.getD, List.getElem?_cons_succ] at h
      simp only [List.length_cons, Nat.succ_lt_succ_iff] at hlen
      simp only [List.set_cons_succ, countOcc, List.countP_cons]
      have := ih (i := n) hlen h
      simp only [countOcc] at this
      omega

theorem countOcc_set_some_none {bs : List (Option Entry)} {i : Nat} {e : Entry}
    (h : bs.getD i none = some e) :
    countOcc bs = countOcc (bs.set i none) + 1 := by
  induction bs generalizing i with
  | nil => simp at h
  | cons hd tl ih =>
    cases i with
    | zero =>
      simp only [List.getD, List.getElem?_cons_zero, Option.getD_some] at h
      subst h
      simp [countOcc, List.countP_cons]
    | succ n =>
      simp only [List.getD, List.getElem?_cons_succ] at h
      simp only [List.set_cons_succ, countOcc, List.countP_cons]
      have := ih (i := n) h
      simp only [countOcc] at this
      omega

theorem countOcc_eq_zero {bs : List (Option Entry)}
    (h : ∀ i, i < bs.length → bs.getD i none = none) : countOcc bs = 0 := by
  induction bs with
  | nil => rfl
  | cons hd tl ih =>
    have h0 := h 0 (by simp)
    simp only [List.getD, List.getElem?_cons_zero, Option.getD_some] at h0
    subst h0
    simp only [countOcc, List.countP_cons]
    have := ih (fun i hi => by
      have := h (i + 1) (by simpa using Nat.succ_lt_succ hi)
      simpa [List.getD] using this)
    simp only [countOcc] at this
    simp [this]

/-! ## The table invariant -/

/-- Home index of an entry under the current probe-window exponent. -/
def homeIdx (shift : Nat) (e : Entry) : Nat := fibonacci_hash e.hash shift

/-- Well-formedness of a table state.  These are the invariants the spec
requires to hold between public operations:
capacity bookkeeping, the array length with its probe-window tail, the
size counter, per-entry placement (`home + displacement = index`,
displacement strictly inside the probe window, stored digest consistent
with the key bytes), key uniqueness, gap-freeness (no empty slot strictly
between an entry's home and its position) and the Robin Hood ordering of
home indices along consecutive occupied slots. -/
def WF (t : Table) : Prop :=
  t.max_size = 2 ^ t.max_size_shift ∧
  HASH_TABLE_INITIAL_SHIFT ≤ t.max_size_shift ∧
  t.buckets.length = t.max_size + t.max_size_shift ∧
  t.curr_size = countOcc t.buckets ∧
  (∀ i, i < t.buckets.length → ∀ e ∈ t.buckets.getD i none,
    homeIdx t.max_size_shift e + e.dist_from_des = i ∧
    e.dist_from_des < t.max_size_shift ∧
    e.hash = djb2_hash e.key ∧ ValidKey e.key) ∧
  (∀ i, i < t.buckets.length → ∀ j, j < t.buckets.length → i ≠ j →
    ∀ e ∈ t.buckets.getD i none, ∀ f ∈ t.buckets.getD j none, e.key ≠ f.key) ∧
  (∀ i, i < t.buckets.length → ∀ e ∈ t.buckets.getD i none,
    ∀ j, j < i + 1 → homeIdx t.max_size_shift e ≤ j → t.buckets.getD j none ≠ none) ∧
  (∀ i, i < t.buckets.length →
    ∀ e ∈ t.buckets.getD i none, ∀ f ∈ t.buckets.getD (i + 1) none,
    homeIdx t.max_size_shift e ≤ homeIdx t.max_size_shift f)

set_option synthInstance.maxSize 512 in
instance (t : Table) : Decidable (WF t) := by
  unfold WF
  infer_instance

/-! ## Hashing facts -/

theorem fibonacci_hash_lt (hash bits : Nat) : fibonacci_hash hash bits < 2 ^ bits := by
  unfold fibonacci_hash WORD_BITS
  rcases Nat.le_total bits 64 with hb | hb
  · rw [Nat.shiftRight_eq_div_pow]
    have hlt : (hash * FIBONACCI_MULTIPLIER) % 2 ^ 64 < 2 ^ 64 :=
      Nat.mod_lt _ (Nat.pos_pow_of_pos 64 (by norm_num))
    rw [Nat.div_lt_iff_lt_mul (Nat.pos_pow_of_pos _ (by norm_num))]
    calc (hash * FIBONACCI_MULTIPLIER) % 2 ^ 64 < 2 ^ 64 := hlt
      _ = 2 ^ (bits + (64 - bits)) := by congr 1; omega
      _ = 2 ^ bits * 2 ^ (64 - bits) := by rw [pow_add]
  · have h0 : 64 - bits = 0 := by omega
    rw [h0, Nat.shiftRight_zero]
    calc (hash * FIBONACCI_MULTIPLIER) % 2 ^ 64 < 2 ^ 64 :=
        Nat.mod_lt _ (Nat.pos_pow_of_pos 64 (by norm_num))
      _ ≤ 2 ^ bits := Nat.pow_le_pow_right (by norm_num) hb

theorem homeIdx_lt (t : Table) (hwf : WF t) (e : Entry) :
    homeIdx t.max_size_shift e < t.max_size := by
  rw [hwf.1]
  exact fibonacci_hash_lt _ _

theorem get_position_lt (t : Table) (hwf : WF t) (k : Key) :
    hash_table_get_position t k < t.max_size := by
  rw [hwf.1]
  exact fibonacci_hash_lt _ _

theorem djb2_step (hash c : Nat) :
    ((hash <<< 5) + hash + c) % 2 ^ WORD_BITS = (hash * 33 + c) % 2 ^ 64 := by
  have h5 : hash <<< 5 = hash * 2 ^ 5 := Nat.shiftLeft_eq hash 5
  rw [h5]
  have h33 : hash * 2 ^ 5 + hash + c = hash * 33 + c := by ring
  rw [h33]
  rfl

theorem djb2_hash_eq_foldl (k : Key) :
    djb2_hash k = k.foldl (fun hash c => (hash * 33 + c) % 2 ^ 64) 5381 := by
  unfold djb2_hash
  congr 1
  funext hash c
  exact djb2_step hash c

/-! ## C6: the home-index computation -/

/-- C6: for every key, the home index equals the DJB2 digest (accumulator
starting at 5381, updated `h ← (h * 33) + c` for each byte `c`, modulo
`2^64` for the 64-bit word) multiplied by the word-sized Fibonacci
constant `11400714819323198485` with unsigned wrap-around, right-shifted
by `64 - capacity_log2`, and the result lies in `[0, capacity)`. -/
theorem home_index_formula (t : Table) (k : Key) (h : WF t) :
    hash_table_get_position t k =
      ((k.foldl (fun hash c => (hash * 33 + c) % 2 ^ 64) 5381) *
        11400714819323198485 % 2 ^ 64) >>> (64 - t.max_size_shift) ∧
    hash_table_get_position t k < t.max_size := by
  constructor
  · rw [hash_table_get_position, fibonacci_hash, djb2_hash_eq_foldl]
    rfl
  · exact get_position_lt t h k

/-- Witness for `home_index_formula` at the fresh table and key "k1". -/
theorem home_index_formula_witness :
    hash_table_get_position hash_table_create [107, 49] =
      (([107, 49].foldl (fun hash c => (hash * 33 + c) % 2 ^ 64) 5381) *
        11400714819323198485 % 2 ^ 64) >>> (64 - hash_table_create.max_size_shift) ∧
    hash_table_get_position hash_table_create [107, 49] < hash_table_create.max_size :=
  home_index_formula hash_table_create [107, 49] (by decide)

/-! ## C7: the load-factor predicates

The source evaluates both thresholds in single-precision float.  The float
conversion of the count is exact below `2^24`, where the predicates agree
with the exact arithmetic of the claim; at larger counts they can disagree
(see `resize_up_float_counterexample`). -/

theorem floatRound_of_le {n : Nat} (h : n ≤ 2 ^ 24) : floatRound n = n := by
  rcases Nat.lt_or_ge n (2 ^ 24) with h1 | h1
  · rw [floatRound, if_pos h1]
  · have h2 : n = 2 ^ 24 := Nat.le_antisymm h h1
    subst h2
    decide

/-- A table state at which the grow predicate of the code and the exact
condition `count + 1 > 0.75 * capacity` disagree: `count + 1 = 25165825`
rounds (ties to even) to the float `25165824 = 0.75 * 2^25`, so the code
does not request a grow although `count + 1` exceeds `0.75 * capacity`.
The predicate reads only the size fields; such a state arises after
25165824 successful insertions. -/
def floatBoundaryTable : Table :=
  { max_size_shift := 25, max_size := 2 ^ 25, curr_size := 25165824, buckets := [] }

/-- C7 counterexample: the claim's exact grow condition holds at
`floatBoundaryTable` but the code's float comparison requests no grow. -/
theorem resize_up_float_counterexample :
    4 * (floatBoundaryTable.curr_size + 1) > 3 * floatBoundaryTable.max_size ∧
    hash_table_should_resize_up_factor floatBoundaryTable = false := by decide

theorem float01_equiv {k n : Nat} (hk : 5 ≤ k) (hn : n ≤ 2 ^ 24) :
    (2 ^ 27 * n < 13421773 * 2 ^ k ↔ 10 * n < 2 ^ k) := by
  constructor
  · intro hlt
    rcases Nat.lt_or_ge k 28 with hk28 | hk28
    · interval_cases k <;> omega
    · have h10 : 10 * n ≤ 10 * 2 ^ 24 := Nat.mul_le_mul_left 10 hn
      have h28 : (2 : Nat) ^ 28 ≤ 2 ^ k := Nat.pow_le_pow_right (by norm_num) hk28
      omega
  · intro hlt
    have h1 : 10 * (2 ^ 27 * n) < 10 * (13421773 * 2 ^ k) := by
      calc 10 * (2 ^ 27 * n) = 2 ^ 27 * (10 * n) := by ring
        _ < 2 ^ 27 * 2 ^ k := by
            have hpos : (0 : Nat) < 2 ^ 27 := by norm_num
            exact mul_lt_mul_of_pos_left hlt hpos
        _ ≤ 10 * (13421773 * 2 ^ k) := by
            have : (2 : Nat) ^ 27 * 2 ^ k ≤ 134217730 * 2 ^ k :=
              Nat.mul_le_mul_right _ (by norm_num)
            calc (2:Nat) ^ 27 * 2 ^ k ≤ 134217730 * 2 ^ k := this
              _ = 10 * (13421773 * 2 ^ k) := by ring
    exact Nat.lt_of_mul_lt_mul_left h1

/-- C7 amended: for counts below the float-precision bound `2^24` the
predicates coincide with exact arithmetic.  A one-step grow is requested
exactly when `count + 1 > 0.75 * capacity`; a one-step shrink is requested
exactly when `capacity_log2 > K0 = 4` and `count - 1 < 0.10 * capacity`;
the shrink check is never taken at `capacity_log2 = K0`.  (At counts at or
above `2^24` the float evaluation can diverge from exact arithmetic, see
`resize_up_float_counterexample`.) -/
theorem resize_factor_amended (t : Table)
    (hmax : t.max_size = 2 ^ t.max_size_shift)
    (hup : t.curr_size + 1 ≤ 2 ^ 24) (hc1 : 1 ≤ t.curr_size) :
    (hash_table_should_resize_up_factor t = true ↔
      4 * (t.curr_size + 1) > 3 * t.max_size) ∧
    (hash_table_should_resize_down_factor t = true ↔
      (HASH_TABLE_INITIAL_SHIFT < t.max_size_shift ∧
        10 * (t.curr_size - 1) < t.max_size)) ∧
    (t.max_size_shift = HASH_TABLE_INITIAL_SHIFT →
      hash_table_should_resize_down_factor t = false) := by
  have hword : (t.curr_size + 1) % 2 ^ WORD_BITS = t.curr_size + 1 := by
    apply Nat.mod_eq_of_lt
    have : (2 : Nat) ^ 24 < 2 ^ WORD_BITS := by norm_num [WORD_BITS]
    omega
  have hdown : (t.curr_size + (2 ^ WORD_BITS - 1)) % 2 ^ WORD_BITS = t.curr_size - 1 := by
    have h1 : t.curr_size + (2 ^ WORD_BITS - 1) = 2 ^ WORD_BITS + (t.curr_size - 1) := by
      have : (2:Nat) ^ WORD_BITS = 2 ^ 64 := rfl
      omega
    rw [h1, Nat.add_mod_left]
    apply Nat.mod_eq_of_lt
    have : (2 : Nat) ^ 24 < 2 ^ WORD_BITS := by norm_num [WORD_BITS]
    omega
  refine ⟨?_, ?_, ?_⟩
  · rw [hash_table_should_resize_up_factor, hword,
      floatRound_of_le hup, decide_eq_true_eq]
  · rw [hash_table_should_resize_down_factor]
    rcases Nat.lt_or_ge HASH_TABLE_INITIAL_SHIFT t.max_size_shift with h4 | h4
    · rw [if_neg (by omega), hdown, floatRound_of_le (by omega), hmax,
        decide_eq_true_eq]
      rw [float01_equiv (by
        have : HASH_TABLE_INITIAL_SHIFT = 4 := rfl
        omega) (by omega)]
      constructor
      · exact fun h => ⟨h4, h⟩
      · exact fun h => h.2
    · rw [if_pos (by omega)]
      constructor
      · intro h
        exact absurd h (by simp)
      · intro h
        omega
  · intro h
    rw [hash_table_should_resize_down_factor, if_pos (by omega)]

/-- Witness for `resize_factor_amended` at a small concrete state. -/
theorem resize_factor_amended_witness :
    (hash_table_should_resize_up_factor
        { max_size_shift := 5, max_size := 32, curr_size := 25, buckets := [] } = true ↔
      4 * (25 + 1) > 3 * 32) ∧
    (hash_table_should_resize_down_factor
        { max_size_shift := 5, max_size := 32, curr_size := 25, buckets := [] } = true ↔
      (HASH_TABLE_INITIAL_SHIFT < 5 ∧ 10 * (25 - 1) < 32)) ∧
    (5 = HASH_TABLE_INITIAL_SHIFT →
      hash_table_should_resize_down_factor
        { max_size_shift := 5, max_size := 32, curr_size := 25, buckets := [] } = false) :=
  resize_factor_amended
    { max_size_shift := 5, max_size := 32, curr_size := 25, buckets := [] }
    (by norm_num) (by norm_num) (by norm_num)

/-! ## Abstract-map correspondence -/

/-- Correspondence between a table state and the abstract partial map it
represents: the table is well-formed, every stored entry is recorded in
the map, and every map binding is stored in some slot. -/
def Corr (t : Table) (m : Key → Option Nat) : Prop :=
  WF t ∧
  (∀ i, i < t.buckets.length → ∀ e ∈ t.buckets.getD i none, m e.key = some e.data) ∧
  (∀ k d, m k = some d →
    ∃ i e, t.buckets.getD i none = some e ∧ e.key = k ∧ e.data = d)

/-! ## The empty-body probe loop -/

theorem iterNext_general (bs : List (Option Entry)) (shift : Nat) (key : Key) :
    ∀ fuel pos pc, shift ≤ fuel + pc → pc ≤ shift →
    (iterNext bs shift key fuel pos pc).1 =
      pos + ((iterNext bs shift key fuel pos pc).2 - pc) ∧
    pc ≤ (iterNext bs shift key fuel pos pc).2 ∧
    (iterNext bs shift key fuel pos pc).2 ≤ shift ∧
    (∀ j, pos ≤ j → j < (iterNext bs shift key fuel pos pc).1 →
      ∃ w, bs.getD j none = some w ∧ w.key ≠ key) ∧
    ((iterNext bs shift key fuel pos pc).2 < shift →
      (bs.getD (iterNext bs shift key fuel pos pc).1 none = none ∨
        ∃ w, bs.getD (iterNext bs shift key fuel pos pc).1 none = some w ∧
          w.key = key)) := by
  intro fuel
  induction fuel with
  | zero =>
    intro pos pc hf hpc
    simp only [iterNext]
    refine ⟨by omega, Nat.le_refl _, hpc, ?_, ?_⟩
    · intro j h1 h2; omega
    · intro h; omega
  | succ fuel ih =>
    intro pos pc hf hpc
    by_cases hlt : pc < shift
    · rw [iterNext, if_pos hlt]
      rcases hslot : bs.getD pos none with _ | e
      · simp only
        refine ⟨by omega, Nat.le_refl _, hpc, ?_, ?_⟩
        · intro j h1 h2; omega
        · intro _; exact Or.inl hslot
      · simp only
        by_cases hkey : e.key = key
        · rw [if_pos hkey]
          refine ⟨by omega, Nat.le_refl _, hpc, ?_, ?_⟩
          · intro j h1 h2; omega
          · intro _; exact Or.inr ⟨e, hslot, hkey⟩
        · rw [if_neg hkey]
          obtain ⟨ih1, ih2, ih3, ih4, ih5⟩ :=
            ih (pos + 1) (pc + 1) (by omega) (by omega)
          refine ⟨by omega, by omega, ih3, ?_, ih5⟩
          intro j h1 h2
          rcases Nat.eq_or_lt_of_le h1 with rfl | h1'
          · exact ⟨e, hslot, hkey⟩
          · exact ih4 j h1' h2
    · rw [iterNext, if_neg hlt]
      have : pc = shift := by omega
      refine ⟨by omega, Nat.le_refl _, hpc, ?_, ?_⟩
      · intro j h1 h2; omega
      · intro h; omega

theorem iterNext_reaches (bs : List (Option Entry)) (shift : Nat) (key : Key)
    (p0 q : Nat) (eq : Entry) (hq : bs.getD q none = some eq)
    (heqk : eq.key = key) (hqlt : q < p0 + shift)
    (hocc : ∀ j, p0 ≤ j → j < q → ∃ w, bs.getD j none = some w ∧ w.key ≠ key) :
    ∀ fuel pos pc, pos = p0 + pc → pos ≤ q → q - pos < fuel →
    iterNext bs shift key fuel pos pc = (q, pc + (q - pos)) := by
  intro fuel
  induction fuel with
  | zero => intro pos pc _ _ hfu; omega
  | succ fuel ih =>
    intro pos pc hpos hle hfu
    have hpc : pc < shift := by omega
    rw [iterNext, if_pos hpc]
    rcases Nat.eq_or_lt_of_le hle with rfl | hlt
    · rw [hq]
      simp [heqk]
    · obtain ⟨w, hw, hwk⟩ := hocc pos (by omega) hlt
      rw [hw]
      simp only [if_neg hwk]
      rw [ih (pos + 1) (pc + 1) (by omega) (by omega) (by omega)]
      have : pc + 1 + (q - (pos + 1)) = pc + (q - pos) := by omega
      rw [this]

/-- Lookup correctness: on a table corresponding to map `m`, `get`
returns the bound payload, or `0` (NULL) when the key is unbound. -/
theorem get_of_corr {t : Table} {m : Key → Option Nat} (h : Corr t m)
    (k : Key) : hash_table_get t k = (m k).getD 0 := by
  obtain ⟨hwf, hml, hmr⟩ := h
  obtain ⟨hmax, hK0, hlen, hcount, hplace, huniq, hgap, hord⟩ := hwf
  have hshift : 4 ≤ t.max_size_shift := hK0
  rcases hm : m k with _ | d
  · -- key unbound: the walk cannot stop on a matching entry
    rw [hash_table_get]
    obtain ⟨g1, g2, g3, g4, g5⟩ :=
      iterNext_general t.buckets t.max_size_shift k t.max_size_shift
        (hash_table_get_position t k) 0 (by omega) (by omega)
    rcases hr : iterNext t.buckets t.max_size_shift k t.max_size_shift
        (hash_table_get_position t k) 0 with ⟨pos', pc'⟩
    rw [hr] at g1 g2 g3 g4 g5
    simp only
    by_cases hfound : pc' < t.max_size_shift
    · rw [hash_table_is_next_found, if_pos (by simpa using hfound)]
      rcases g5 hfound with hnone | ⟨w, hw, hwk⟩
      · rw [hnone]
        rfl
      · have := hml pos' (lt_length_of_getD_some hw) w hw
        rw [hwk, hm] at this
        exact Option.noConfusion this
    · rw [hash_table_is_next_found, if_neg (by simpa using hfound)]
      rfl
  · -- key bound: the walk stops exactly at its slot
    obtain ⟨q, eqe, hq, hqk, hqd⟩ := hmr k d hm
    have hqlen := lt_length_of_getD_some hq
    obtain ⟨hhome, hdist, hhash, hvalid⟩ := hplace q hqlen eqe hq
    have hhomeq : homeIdx t.max_size_shift eqe = hash_table_get_position t k := by
      rw [homeIdx, hash_table_get_position, hhash, hqk]
    rw [hash_table_get]
    have hocc : ∀ j, hash_table_get_position t k ≤ j → j < q →
        ∃ w, t.buckets.getD j none = some w ∧ w.key ≠ k := by
      intro j h1 h2
      have hne : t.buckets.getD j none ≠ none := by
        apply hgap q hqlen eqe hq j (by omega)
        rw [hhomeq]; exact h1
      rcases hj : t.buckets.getD j none with _ | w
      · exact absurd hj hne
      · refine ⟨w, rfl, ?_⟩
        intro hwk
        have := huniq j (lt_length_of_getD_some hj) q hqlen (by omega) w hj eqe hq
        rw [hwk, hqk] at this
        exact this rfl
    rw [iterNext_reaches t.buckets t.max_size_shift k
      (hash_table_get_position t k) q eqe hq hqk (by omega) hocc
      t.max_size_shift (hash_table_get_position t k) 0 rfl (by omega) (by omega)]
    simp only
    rw [hash_table_is_next_found, if_pos (by simp; omega), hq]
    exact hqd

/-! ## The Robin Hood insertion walk

Fixed throughout: the probe-window exponent `shift`, the entry `e` being
inserted (displacement 0), and the pre-insertion buckets `bs0`.  The home
index of the walk is `homeIdx shift e`. -/

/-- Homes are monotone along a run of occupied slots. -/
theorem ord_chain (shift : Nat) (bs : List (Option Entry))
    (hord : ∀ j, ∀ w ∈ bs.getD j none, ∀ w2 ∈ bs.getD (j + 1) none,
      homeIdx shift w ≤ homeIdx shift w2) :
    ∀ n i j, j = i + n →
    (∀ j', i ≤ j' → j' ≤ j → bs.getD j' none ≠ none) →
    ∀ w ∈ bs.getD i none, ∀ w2 ∈ bs.getD j none,
    homeIdx shift w ≤ homeIdx shift w2 := by
  intro n
  induction n with
  | zero =>
    intro i j hj _ w hw w2 hw2
    subst hj
    rw [hw2] at hw
    cases hw
    exact Nat.le_refl _
  | succ n ih =>
    intro i j hj hocc w hw w2 hw2
    rcases hmid : bs.getD (i + n) none with _ | wm
    · exact absurd hmid (hocc (i + n) (by omega) (by omega))
    · calc homeIdx shift w ≤ homeIdx shift wm :=
            ih i (i + n) rfl (fun j' h1 h2 => hocc j' h1 (by omega)) w hw wm hmid
        _ ≤ homeIdx shift w2 := by
            have : j = (i + n) + 1 := by omega
            subst this
            exact hord (i + n) wm hmid w2 hw2

/-- The generic invariant of the insertion walk, relating the walk state
`(bs, c, pos, pc)` (buckets, carried entry, position, probe count) to the
pre-walk buckets `bs0`.  These are the facts needed to show that the
unwind exactly reverses a failed walk. -/
structure UInv (shift : Nat) (e : Entry) (bs0 : List (Option Entry))
    (bs : List (Option Entry)) (c : Entry) (pos pc : Nat) : Prop where
  upos : pos = homeIdx shift e + pc
  upc : pc ≤ shift
  ulen : bs.length = bs0.length
  uhome : homeIdx shift c + c.dist_from_des = pos
  ueq : c.key = e.key → c = { e with dist_from_des := pc }
  une : c.key ≠ e.key → homeIdx shift e < homeIdx shift c
  ucur : c.key ≠ e.key → ∀ occ ∈ bs.getD pos none,
    homeIdx shift c ≤ homeIdx shift occ
  uprev : homeIdx shift e < pos → ∀ w ∈ bs.getD (pos - 1) none,
    homeIdx shift w ≤ homeIdx shift c
  uord : ∀ j, ∀ w ∈ bs.getD j none, ∀ w2 ∈ bs.getD (j + 1) none,
    homeIdx shift w ≤ homeIdx shift w2
  uframe : ∀ j, pos ≤ j → bs.getD j none = bs0.getD j none
  uframeL : ∀ j, j < homeIdx shift e → bs.getD j none = bs0.getD j none
  uwrit : ∀ j, homeIdx shift e ≤ j → j < pos →
    ∃ w, bs.getD j none = some w ∧ homeIdx shift w + w.dist_from_des = j ∧
      w.dist_from_des < shift ∧ w.hash = djb2_hash w.key ∧ ValidKey w.key
  uhash : c.hash = djb2_hash c.key
  uvalid : ValidKey c.key

/-- `homeIdx` ignores the displacement field. -/
theorem homeIdx_mk (shift : Nat) (w : Entry) (d : Nat) :
    homeIdx shift { w with dist_from_des := d } = homeIdx shift w := rfl

/-- Preservation of `UInv` across a displacing (swap) step of the walk. -/
theorem UInv.step_swap {shift : Nat} {e : Entry} {bs0 : List (Option Entry)}
    {bs : List (Option Entry)} {c : Entry} {pos pc : Nat} {cur : Entry}
    (hp0len : homeIdx shift e + shift ≤ bs0.length)
    (hplace0 : ∀ i, ∀ w ∈ bs0.getD i none,
      homeIdx shift w + w.dist_from_des = i ∧ w.dist_from_des < shift ∧
      w.hash = djb2_hash w.key ∧ ValidKey w.key)
    (h : UInv shift e bs0 bs c pos pc) (hpclt : pc < shift)
    (hcur : bs.getD pos none = some cur) (hkey : cur.key ≠ e.key)
    (hrep : cur.dist_from_des < c.dist_from_des) :
    UInv shift e bs0 (bs.set pos (some c))
      { cur with dist_from_des := cur.dist_from_des + 1 } (pos + 1) (pc + 1) := by
  obtain ⟨upos, upc, ulen, uhome, ueq, une, ucur, uprev, uord, uframe, uframeL,
    uwrit, uhash, uvalid⟩ := h
  have hposlen : pos < bs.length := by omega
  have hcur0 : bs0.getD pos none = some cur := by
    rw [← uframe pos (Nat.le_refl _)]
    exact hcur
  obtain ⟨hcp, hcd, hch, hcv⟩ := hplace0 pos cur hcur0
  have homelt : homeIdx shift c < homeIdx shift cur := by omega
  have homec : homeIdx shift e ≤ homeIdx shift c := by
    by_cases hc : c.key = e.key
    · rw [ueq hc]
      exact Nat.le_refl _
    · exact Nat.le_of_lt (une hc)
  refine ⟨by omega, by omega, ?_, ?_, ?_, ?_, ?_, ?_, ?_, ?_, ?_, ?_, hch, hcv⟩
  · rw [List.length_set]; exact ulen
  · show homeIdx shift cur + (cur.dist_from_des + 1) = pos + 1
    omega
  · intro hk
    exact absurd hk hkey
  · intro _
    show homeIdx shift e < homeIdx shift cur
    omega
  · intro _ occ hocc
    show homeIdx shift cur ≤ homeIdx shift occ
    rw [getD_set_other (by omega)] at hocc
    exact uord pos cur hcur occ hocc
  · intro _
    have hps : pos + 1 - 1 = pos := by omega
    rw [hps]
    intro w hw
    rw [getD_set_self hposlen] at hw
    cases hw
    show homeIdx shift c ≤ homeIdx shift cur
    exact Nat.le_of_lt homelt
  · intro j w hw w2 hw2
    rcases eq_or_ne j pos with rfl | hj
    · rw [getD_set_self hposlen] at hw
      cases hw
      rw [getD_set_other (by omega)] at hw2
      exact Nat.le_trans (Nat.le_of_lt homelt) (uord j cur hcur w2 hw2)
    · rw [getD_set_other (Ne.symm hj)] at hw
      rcases eq_or_ne (j + 1) pos with hj1 | hj1
      · rw [hj1, getD_set_self hposlen] at hw2
        cases hw2
        by_cases hp : homeIdx shift e < pos
        · have huse := uprev hp w
          rw [← hj1] at huse
          have hsimp : j + 1 - 1 = j := by omega
          rw [hsimp] at huse
          exact huse hw
        · have hjlt : j < homeIdx shift e := by omega
          rw [uframeL j hjlt] at hw
          obtain ⟨hwp, _, _, _⟩ := hplace0 j w hw
          omega
      · rw [getD_set_other (Ne.symm hj1)] at hw2
        exact uord j w hw w2 hw2
  · intro j hj
    rw [getD_set_other (by omega)]
    exact uframe j (by omega)
  · intro j hj
    rw [getD_set_other (by omega)]
    exact uframeL j hj
  · intro j h1 h2
    rcases eq_or_ne j pos with rfl | hj
    · exact ⟨c, getD_set_self hposlen, by omega, by omega, uhash, uvalid⟩
    · rw [getD_set_other (Ne.symm hj)]
      exact uwrit j h1 (by omega)

/-- Preservation of `UInv` across a non-displacing step of the walk. -/
theorem UInv.step_stay {shift : Nat} {e : Entry} {bs0 : List (Option Entry)}
    {bs : List (Option Entry)} {c : Entry} {pos pc : Nat} {cur : Entry}
    (hplace0 : ∀ i, ∀ w ∈ bs0.getD i none,
      homeIdx shift w + w.dist_from_des = i ∧ w.dist_from_des < shift ∧
      w.hash = djb2_hash w.key ∧ ValidKey w.key)
    (h : UInv shift e bs0 bs c pos pc) (hpclt : pc < shift)
    (hcur : bs.getD pos none = some cur) (hkey : cur.key ≠ e.key)
    (hrep : ¬ cur.dist_from_des < c.dist_from_des) :
    UInv shift e bs0 bs
      { c with dist_from_des := c.dist_from_des + 1 } (pos + 1) (pc + 1) := by
  obtain ⟨upos, upc, ulen, uhome, ueq, une, ucur, uprev, uord, uframe, uframeL,
    uwrit, uhash, uvalid⟩ := h
  have hcur0 : bs0.getD pos none = some cur := by
    rw [← uframe pos (Nat.le_refl _)]
    exact hcur
  obtain ⟨hcp, hcd, hch, hcv⟩ := hplace0 pos cur hcur0
  have homege : homeIdx shift cur ≤ homeIdx shift c := by omega
  refine ⟨by omega, by omega, ulen, ?_, ?_, ?_, ?_, ?_, uord, ?_, uframeL, ?_,
    uhash, uvalid⟩
  · show homeIdx shift c + (c.dist_from_des + 1) = pos + 1
    omega
  · intro hk
    rw [ueq hk]
  · intro hk
    show homeIdx shift e < homeIdx shift c
    exact une hk
  · intro hk occ hocc
    show homeIdx shift c ≤ homeIdx shift occ
    exact Nat.le_trans (ucur hk cur hcur) (uord pos cur hcur occ hocc)
  · intro _
    have hps : pos + 1 - 1 = pos := by omega
    rw [hps]
    intro w hw
    rw [hcur] at hw
    cases hw
    show homeIdx shift cur ≤ homeIdx shift c
    exact homege
  · intro j hj
    exact uframe j (by omega)
  · intro j h1 h2
    rcases eq_or_ne j pos with rfl | hj
    · exact ⟨cur, hcur, hcp, hcd, hch, hcv⟩
    · exact uwrit j h1 (by omega)


theorem entry_eta (w : Entry) : { w with dist_from_des := w.dist_from_des } = w := rfl

/-- Running the insertion walk from a `UInv` state preserves the invariant
and stops only at the probe-window bound, an empty slot, or an occupant
with the inserted key. -/
theorem insertWalk_uinv {shift : Nat} {e : Entry} {bs0 : List (Option Entry)}
    (hp0len : homeIdx shift e + shift ≤ bs0.length)
    (hplace0 : ∀ i, ∀ w ∈ bs0.getD i none,
      homeIdx shift w + w.dist_from_des = i ∧ w.dist_from_des < shift ∧
      w.hash = djb2_hash w.key ∧ ValidKey w.key) :
    ∀ fuel bs c pos pc, fuel + pc = shift →
    UInv shift e bs0 bs c pos pc →
    ∃ bs1 pos1 pc1 rich,
      insertWalk shift e.key fuel bs c pos pc = (bs1, pos1, pc1, rich) ∧
      UInv shift e bs0 bs1 rich pos1 pc1 ∧
      (pc1 < shift →
        bs1.getD pos1 none = none ∨
        ∃ cur ∈ bs1.getD pos1 none, cur.key = e.key) := by
  intro fuel
  induction fuel with
  | zero =>
    intro bs c pos pc hf h
    refine ⟨bs, pos, pc, c, rfl, h, ?_⟩
    intro hlt
    omega
  | succ fuel ih =>
    intro bs c pos pc hf h
    have hpclt : pc < shift := by omega
    rw [insertWalk, if_pos hpclt]
    rcases hslot : bs.getD pos none with _ | cur
    · exact ⟨bs, pos, pc, c, rfl, h, fun _ => Or.inl hslot⟩
    · dsimp only
      by_cases hkey : cur.key = e.key
      · rw [if_pos hkey]
        exact ⟨bs, pos, pc, c, rfl, h, fun _ => Or.inr ⟨cur, hslot, hkey⟩⟩
      · rw [if_neg hkey]
        by_cases hrep : cur.dist_from_des < c.dist_from_des
        · rw [if_pos (by simpa [hash_table_should_replace_entry] using hrep)]
          exact ih _ _ _ _ (by omega)
            (h.step_swap hp0len hplace0 hpclt hslot hkey hrep)
        · rw [if_neg (by simpa [hash_table_should_replace_entry] using hrep)]
          exact ih _ _ _ _ (by omega)
            (h.step_stay hplace0 hpclt hslot hkey hrep)

/-- Unfolding lemma for `unwindFrom` at index 0 with an occupied slot;
`poor1` is the carried entry after its displacement decrement. -/
theorem unwindFrom_zero_some {bs : List (Option Entry)} {cur : Entry}
    (inserted poor poor1 : Entry)
    (hpoor : ({ poor with dist_from_des := poor.dist_from_des - 1 } : Entry) = poor1)
    (h : bs.getD 0 none = some cur) :
    unwindFrom inserted bs poor 0 =
      (if hash_table_should_replace_entry cur poor1 then
        bs.set 0 (some poor1)
      else bs) := by
  subst hpoor
  have hdef : unwindFrom inserted bs poor 0 =
      (match bs.getD 0 none with
      | none => bs
      | some current =>
        if hash_table_should_replace_entry current
            { poor with dist_from_des := poor.dist_from_des - 1 } then
          bs.set 0 (some { poor with dist_from_des := poor.dist_from_des - 1 })
        else bs) := rfl
  rw [hdef, h]

/-- Unfolding lemma for `unwindFrom` at a successor index with an occupied
slot; `poor1` is the carried entry after its displacement decrement. -/
theorem unwindFrom_succ_some {bs : List (Option Entry)} {i : Nat} {cur : Entry}
    (inserted poor poor1 : Entry)
    (hpoor : ({ poor with dist_from_des := poor.dist_from_des - 1 } : Entry) = poor1)
    (h : bs.getD (i + 1) none = some cur) :
    unwindFrom inserted bs poor (i + 1) =
      (if hash_table_should_replace_entry cur poor1 then
        if cur.key = inserted.key then
          bs.set (i + 1) (some poor1)
        else
          unwindFrom inserted (bs.set (i + 1) (some poor1)) cur i
      else
        if poor.key = inserted.key then bs
        else unwindFrom inserted bs poor1 i) := by
  subst hpoor
  have hdef : unwindFrom inserted bs poor (i + 1) =
      (match bs.getD (i + 1) none with
      | none =>
        if poor.key = inserted.key then bs
        else unwindFrom inserted bs
          { poor with dist_from_des := poor.dist_from_des - 1 } i
      | some current =>
        if hash_table_should_replace_entry current
            { poor with dist_from_des := poor.dist_from_des - 1 } then
          if current.key = inserted.key then
            bs.set (i + 1) (some { poor with dist_from_des := poor.dist_from_des - 1 })
          else
            unwindFrom inserted
              (bs.set (i + 1) (some { poor with dist_from_des := poor.dist_from_des - 1 }))
              current i
        else
          if poor.key = inserted.key then bs
          else unwindFrom inserted bs
            { poor with dist_from_des := poor.dist_from_des - 1 } i) := rfl
  rw [hdef, h]

/-- The unwind exactly reverses the displacements performed by a walk that
exhausted its probe window: starting from the state the failed walk left
behind, `unwindFrom` rebuilds the buckets the walk started from (and, in
mid-walk form, continues below the walk's starting position carrying the
entry the walk started with). -/
theorem insertWalk_unwind {shift : Nat} {e : Entry} {bs0 : List (Option Entry)}
    (hp0len : homeIdx shift e + shift ≤ bs0.length)
    (hplace0 : ∀ i, ∀ w ∈ bs0.getD i none,
      homeIdx shift w + w.dist_from_des = i ∧ w.dist_from_des < shift ∧
      w.hash = djb2_hash w.key ∧ ValidKey w.key)
    (hshift : 1 ≤ shift) :
    ∀ fuel bs c pos pc, fuel + pc = shift →
    UInv shift e bs0 bs c pos pc →
    ∀ bs1 pos1 rich, insertWalk shift e.key fuel bs c pos pc =
      (bs1, pos1, shift, rich) →
    unwindFrom e bs1 rich (homeIdx shift e + shift - 1) =
      (if c.key = e.key then bs else unwindFrom e bs c (pos - 1)) := by
  intro fuel
  induction fuel with
  | zero =>
    intro bs c pos pc hf h bs1 pos1 rich hw
    rw [insertWalk] at hw
    obtain ⟨rfl, rfl, -, rfl⟩ :
        bs = bs1 ∧ pos = pos1 ∧ pc = shift ∧ c = rich := by
      refine ⟨?_, ?_, ?_, ?_⟩ <;> cases hw <;> rfl
    have hpc : pc = shift := by omega
    by_cases hc : c.key = e.key
    · rw [if_pos hc]
      -- the carried entry is the inserted one at full displacement;
      -- the top slot's occupant has smaller displacement, so one
      -- step of the unwind stops without modifying anything
      have hcd : c.dist_from_des = shift := by
        have hueq := h.ueq hc
        rw [hueq]
        exact hpc
      obtain ⟨w, hwslot, hwp, hwd, -, -⟩ :=
        h.uwrit (homeIdx shift e + shift - 1) (by omega)
          (by have := h.upos; omega)
      have hrep : ¬ hash_table_should_replace_entry w
          { c with dist_from_des := c.dist_from_des - 1 } = true := by
        simp only [hash_table_should_replace_entry, decide_eq_true_eq, not_lt]
        show w.dist_from_des ≤ c.dist_from_des - 1
        omega
      rcases htop : homeIdx shift e + shift - 1 with _ | i
      · rw [unwindFrom]
        rw [htop] at hwslot
        rw [hwslot]
        dsimp only
        rw [if_neg hrep]
      · rw [unwindFrom]
        rw [htop] at hwslot
        rw [hwslot]
        dsimp only
        rw [if_neg hrep, if_pos hc]
    · rw [if_neg hc]
      have hpose : pos = homeIdx shift e + shift := by
        have := h.upos; omega
      rw [hpose]
  | succ fuel ih =>
    intro bs c pos pc hf h bs1 pos1 rich hw
    have hpclt : pc < shift := by omega
    rw [insertWalk, if_pos hpclt] at hw
    rcases hslot : bs.getD pos none with _ | cur <;> rw [hslot] at hw
    · -- empty slot: the walk stopped with pc < shift, contradiction
      exfalso
      obtain ⟨-, -, hpc, -⟩ :
          bs = bs1 ∧ pos = pos1 ∧ pc = shift ∧ c = rich := by
        refine ⟨?_, ?_, ?_, ?_⟩ <;> cases hw <;> rfl
      omega
    · dsimp only at hw
      by_cases hkey : cur.key = e.key
      · rw [if_pos hkey] at hw
        exfalso
        obtain ⟨-, -, hpc, -⟩ :
            bs = bs1 ∧ pos = pos1 ∧ pc = shift ∧ c = rich := by
          refine ⟨?_, ?_, ?_, ?_⟩ <;> cases hw <;> rfl
        omega
      · rw [if_neg hkey] at hw
        have hposlen : pos < bs.length := by
          have h1 := h.ulen
          have h2 := h.upos
          have h3 := h.upc
          omega
        have hcur0 : bs0.getD pos none = some cur := by
          rw [← h.uframe pos (Nat.le_refl _)]
          exact hslot
        obtain ⟨hcp, hcd, -, -⟩ := hplace0 pos cur hcur0
        by_cases hrep : cur.dist_from_des < c.dist_from_des
        · rw [if_pos (by simpa [hash_table_should_replace_entry] using hrep)] at hw
          have hnext := h.step_swap hp0len hplace0 hpclt hslot hkey hrep
          have ihres := ih _ _ _ _ (by omega) hnext bs1 pos1 rich hw
          rw [if_neg (by simpa using hkey)] at ihres
          rw [Nat.add_sub_cancel] at ihres
          rw [ihres]
          -- one reverse step at `pos` undoes this swap
          rcases hpos0 : pos with _ | i
          · -- pos = 0 forces the carried entry to be the inserted one
            have hc : c.key = e.key := by
              by_contra hcontra
              have h1 := h.une hcontra
              have h2 := h.uhome
              omega
            rw [if_pos hc]
            rw [hpos0] at hslot hposlen
            rw [unwindFrom_zero_some e _ cur (by rfl) (getD_set_self hposlen)]
            rw [if_pos (by simpa [hash_table_should_replace_entry] using hrep)]
            rw [List.set_set, set_getD_self hslot]
          · rw [hpos0] at hslot hposlen
            rw [unwindFrom_succ_some e _ cur (by rfl) (getD_set_self hposlen)]
            rw [if_pos (by simpa [hash_table_should_replace_entry] using hrep)]
            by_cases hc : c.key = e.key
            · rw [if_pos hc, if_pos hc]
              rw [List.set_set, set_getD_self hslot]
            · rw [if_neg hc, if_neg hc]
              rw [List.set_set, set_getD_self hslot]
              have hsimp : i + 1 - 1 = i := by omega
              rw [hsimp]
        · rw [if_neg (by simpa [hash_table_should_replace_entry] using hrep)] at hw
          have hnext := h.step_stay hplace0 hpclt hslot hkey hrep
          have ihres := ih _ _ _ _ (by omega) hnext bs1 pos1 rich hw
          rw [Nat.add_sub_cancel] at ihres
          by_cases hc : c.key = e.key
          · rw [if_pos (by simpa using hc)] at ihres
            rw [ihres, if_pos hc]
          · rw [if_neg (by simpa using hc)] at ihres
            rw [ihres, if_neg hc]
            -- the displacements tie here, so the reverse step keeps the
            -- occupant in place and carries the entry further back
            have htie : cur.dist_from_des = c.dist_from_des := by
              have h1 := h.ucur hc cur hslot
              have h2 := h.uhome
              omega
            have hposge : 1 ≤ pos := by
              have h1 := h.une hc
              have h2 := h.uhome
              omega
            have hkey2 : ({ c with dist_from_des := c.dist_from_des + 1 } : Entry).key
                = c.key := rfl
            rcases hpos0 : pos with _ | i
            · omega
            · rw [hpos0] at hslot
              rw [unwindFrom_succ_some e _ c (by rfl) hslot, hkey2]
              rw [if_neg (by
                simp only [hash_table_should_replace_entry, decide_eq_true_eq, not_lt]
                omega)]
              rw [if_neg hc]
              have hsimp : i + 1 - 1 = i := by omega
              rw [hsimp]

/-! ## Observable bucket contents -/

/-- Some slot stores key `k` with payload `d`. -/
def inB (bs : List (Option Entry)) (k : Key) (d : Nat) : Prop :=
  ∃ i w, bs.getD i none = some w ∧ w.key = k ∧ w.data = d

/-- Pointwise map update. -/
def mapUpdate (m : Key → Option Nat) (k : Key) (d : Nat) : Key → Option Nat :=
  fun k' => if k' = k then some d else m k'

/-- The structural (per-slot) part of the table invariant, stated without
length bounds (`getD` is `none` beyond the end). -/
structure BucketsWF (shift : Nat) (bs : List (Option Entry)) : Prop where
  place : ∀ i, ∀ w ∈ bs.getD i none,
    homeIdx shift w + w.dist_from_des = i ∧ w.dist_from_des < shift ∧
    w.hash = djb2_hash w.key ∧ ValidKey w.key
  uniq : ∀ i j, i ≠ j → ∀ w ∈ bs.getD i none, ∀ w2 ∈ bs.getD j none,
    w.key ≠ w2.key
  gap : ∀ i, ∀ w ∈ bs.getD i none, ∀ j, homeIdx shift w ≤ j → j ≤ i →
    bs.getD j none ≠ none
  ord : ∀ j, ∀ w ∈ bs.getD j none, ∀ w2 ∈ bs.getD (j + 1) none,
    homeIdx shift w ≤ homeIdx shift w2

theorem WF.bucketsWF {t : Table} (h : WF t) :
    BucketsWF t.max_size_shift t.buckets := by
  obtain ⟨hmax, hK0, hlen, hcount, hplace, huniq, hgap, hord⟩ := h
  refine ⟨?_, ?_, ?_, ?_⟩
  · intro i w hw
    exact hplace i (lt_length_of_getD_some hw) w hw
  · intro i j hij w hw w2 hw2
    exact huniq i (lt_length_of_getD_some hw) j (lt_length_of_getD_some hw2) hij w hw w2 hw2
  · intro i w hw j h1 h2
    exact hgap i (lt_length_of_getD_some hw) w hw j (by omega) h1
  · intro j w hw w2 hw2
    exact hord j (lt_length_of_getD_some hw) w hw w2 hw2

theorem WF.of_parts {t : Table} (hmax : t.max_size = 2 ^ t.max_size_shift)
    (hK0 : HASH_TABLE_INITIAL_SHIFT ≤ t.max_size_shift)
    (hlen : t.buckets.length = t.max_size + t.max_size_shift)
    (hcount : t.curr_size = countOcc t.buckets)
    (hB : BucketsWF t.max_size_shift t.buckets) : WF t := by
  refine ⟨hmax, hK0, hlen, hcount, ?_, ?_, ?_, ?_⟩
  · intro i _ w hw
    exact hB.place i w hw
  · intro i _ j _ hij w hw w2 hw2
    exact hB.uniq i j hij w hw w2 hw2
  · intro i _ w hw j h1 h2
    exact hB.gap i w hw j h2 (by omega)
  · intro j _ w hw w2 hw2
    exact hB.ord j w hw w2 hw2

/-- The initial walk state satisfies the generic invariant. -/
theorem UInv.init {shift : Nat} {e : Entry} {bs0 : List (Option Entry)}
    (hB : BucketsWF shift bs0)
    (he_dist : e.dist_from_des = 0) (he_hash : e.hash = djb2_hash e.key)
    (he_valid : ValidKey e.key) :
    UInv shift e bs0 bs0 e (homeIdx shift e) 0 := by
  refine ⟨by omega, by omega, rfl, by omega, ?_, ?_, ?_, ?_, hB.ord, ?_, ?_, ?_,
    he_hash, he_valid⟩
  · intro _
    rw [← he_dist]
  · intro hk
    exact absurd rfl hk
  · intro hk
    exact absurd rfl hk
  · intro hlt
    omega
  · intro j _
    rfl
  · intro j _
    rfl
  · intro j h1 h2
    omega

/-- The fresh-key extension of the walk invariant: the inserted key is
absent from the pre-walk buckets, and the walk additionally preserves
occupancy, occupied count, key uniqueness, and the exchange property
relating the walk state's contents to the original contents. -/
structure WInv (shift : Nat) (e : Entry) (bs0 : List (Option Entry))
    (bs : List (Option Entry)) (c : Entry) (pos pc : Nat) : Prop where
  base : UInv shift e bs0 bs c pos pc
  hbs0 : c.key = e.key → bs = bs0
  hwrit2 : ∀ j, homeIdx shift e ≤ j → j < pos → ∀ w ∈ bs.getD j none,
    homeIdx shift w < homeIdx shift e → bs0.getD j none = some w
  hoccEq : ∀ j, bs.getD j none = none ↔ bs0.getD j none = none
  hcount : countOcc bs = countOcc bs0
  hexch : ∀ k d, (inB bs k d ∨ (c.key = k ∧ c.data = d)) ↔
    (inB bs0 k d ∨ (e.key = k ∧ e.data = d))
  huniq : ∀ i j, i ≠ j → ∀ w ∈ bs.getD i none, ∀ w2 ∈ bs.getD j none,
    w.key ≠ w2.key
  hcfree : c.key ≠ e.key → ∀ i, ∀ w ∈ bs.getD i none, w.key ≠ c.key

theorem WInv.initW {shift : Nat} {e : Entry} {bs0 : List (Option Entry)}
    (hB : BucketsWF shift bs0)
    (he_dist : e.dist_from_des = 0) (he_hash : e.hash = djb2_hash e.key)
    (he_valid : ValidKey e.key) :
    WInv shift e bs0 bs0 e (homeIdx shift e) 0 := by
  refine ⟨UInv.init hB he_dist he_hash he_valid, fun _ => rfl, ?_, ?_, rfl, ?_,
    hB.uniq, ?_⟩
  · intro j h1 h2
    omega
  · intro j
    exact Iff.rfl
  · intro k d
    exact Iff.rfl
  · intro hk
    exact absurd rfl hk

/-- A swapped-in or swapped-out slot exchanges the bucket contents. -/
theorem inB_set_exchange {bs : List (Option Entry)} {pos : Nat} {cur c : Entry}
    (hcur : bs.getD pos none = some cur) :
    ∀ k d, inB (bs.set pos (some c)) k d ↔
      ((∃ i w, i ≠ pos ∧ bs.getD i none = some w ∧ w.key = k ∧ w.data = d) ∨
        (c.key = k ∧ c.data = d)) := by
  have hposlen : pos < bs.length := lt_length_of_getD_some hcur
  intro k d
  constructor
  · rintro ⟨i, w, hw, hk, hd⟩
    rcases eq_or_ne i pos with rfl | hi
    · rw [getD_set_self hposlen] at hw
      cases hw
      exact Or.inr ⟨hk, hd⟩
    · rw [getD_set_other (Ne.symm hi)] at hw
      exact Or.inl ⟨i, w, hi, hw, hk, hd⟩
  · rintro (⟨i, w, hi, hw, hk, hd⟩ | ⟨hk, hd⟩)
    · exact ⟨i, w, by rw [getD_set_other (Ne.symm hi)]; exact hw, hk, hd⟩
    · exact ⟨pos, c, getD_set_self hposlen, hk, hd⟩

theorem inB_elim_set {bs : List (Option Entry)} {pos : Nat} {cur : Entry}
    (hcur : bs.getD pos none = some cur) {k : Key} {d : Nat} :
    inB bs k d ↔
      ((∃ i w, i ≠ pos ∧ bs.getD i none = some w ∧ w.key = k ∧ w.data = d) ∨
        (cur.key = k ∧ cur.data = d)) := by
  constructor
  · rintro ⟨i, w, hw, hk, hd⟩
    rcases eq_or_ne i pos with rfl | hi
    · rw [hcur] at hw
      cases hw
      exact Or.inr ⟨hk, hd⟩
    · exact Or.inl ⟨i, w, hi, hw, hk, hd⟩
  · rintro (⟨i, w, _, hw, hk, hd⟩ | ⟨hk, hd⟩)
    · exact ⟨i, w, hw, hk, hd⟩
    · exact ⟨pos, cur, hcur, hk, hd⟩

/-- Preservation of `WInv` across a displacing (swap) step. -/
theorem WInv.swapW {shift : Nat} {e : Entry} {bs0 : List (Option Entry)}
    {bs : List (Option Entry)} {c : Entry} {pos pc : Nat} {cur : Entry}
    (hp0len : homeIdx shift e + shift ≤ bs0.length)
    (hplace0 : ∀ i, ∀ w ∈ bs0.getD i none,
      homeIdx shift w + w.dist_from_des = i ∧ w.dist_from_des < shift ∧
      w.hash = djb2_hash w.key ∧ ValidKey w.key)
    (hfresh : ∀ i, ∀ w ∈ bs0.getD i none, w.key ≠ e.key)
    (h : WInv shift e bs0 bs c pos pc) (hpclt : pc < shift)
    (hcur : bs.getD pos none = some cur) (hkey : cur.key ≠ e.key)
    (hrep : cur.dist_from_des < c.dist_from_des) :
    WInv shift e bs0 (bs.set pos (some c))
      { cur with dist_from_des := cur.dist_from_des + 1 } (pos + 1) (pc + 1) := by
  have hposlen : pos < bs.length := lt_length_of_getD_some hcur
  have hcfree' : ∀ i, ∀ w ∈ bs.getD i none, w.key ≠ c.key := by
    by_cases hc : c.key = e.key
    · intro i w hw
      rw [h.hbs0 hc] at hw
      rw [hc]
      exact hfresh i w hw
    · exact fun i w hw => h.hcfree hc i w hw
  refine ⟨h.base.step_swap hp0len hplace0 hpclt hcur hkey hrep, ?_, ?_, ?_, ?_,
    ?_, ?_, ?_⟩
  · intro hk
    exact absurd hk hkey
  · intro j h1 h2 w hw hlt
    rcases eq_or_ne j pos with rfl | hj
    · rw [getD_set_self hposlen] at hw
      cases hw
      exfalso
      have homec : homeIdx shift e ≤ homeIdx shift c := by
        by_cases hc : c.key = e.key
        · rw [h.base.ueq hc]
          exact Nat.le_refl _
        · exact Nat.le_of_lt (h.base.une hc)
      omega
    · rw [getD_set_other (Ne.symm hj)] at hw
      exact h.hwrit2 j h1 (by omega) w hw hlt
  · intro j
    rcases eq_or_ne j pos with rfl | hj
    · rw [getD_set_self hposlen]
      rw [← h.hoccEq j, hcur]
      simp
    · rw [getD_set_other (Ne.symm hj)]
      exact h.hoccEq j
  · rw [countOcc_set_some hcur]
    exact h.hcount
  · intro k d
    rw [inB_set_exchange hcur k d]
    have hprev := h.hexch k d
    rw [inB_elim_set hcur] at hprev
    constructor
    · rintro ((⟨i, w, hi, hw, hk, hd⟩ | ⟨hk, hd⟩) | hcm)
      · exact hprev.mp (Or.inl (Or.inl ⟨i, w, hi, hw, hk, hd⟩))
      · exact hprev.mp (Or.inr ⟨hk, hd⟩)
      · -- the carried-out entry has the old occupant's key and payload
        have hk : cur.key = k := hcm.1
        have hd : cur.data = d := hcm.2
        exact hprev.mp (Or.inl (Or.inr ⟨hk, hd⟩))
    · intro hr
      rcases hprev.mpr hr with (⟨i, w, hi, hw, hk, hd⟩ | ⟨hk, hd⟩) | ⟨hk, hd⟩
      · exact Or.inl (Or.inl ⟨i, w, hi, hw, hk, hd⟩)
      · exact Or.inr ⟨hk, hd⟩
      · exact Or.inl (Or.inr ⟨hk, hd⟩)
  · intro i j hij w hw w2 hw2
    rcases eq_or_ne i pos with rfl | hi
    · rw [getD_set_self hposlen] at hw
      cases hw
      rw [getD_set_other hij] at hw2
      intro hkk
      exact hcfree' j w2 hw2 hkk.symm
    · rw [getD_set_other (Ne.symm hi)] at hw
      rcases eq_or_ne j pos with rfl | hj
      · rw [getD_set_self hposlen] at hw2
        cases hw2
        exact fun hkk => hcfree' i w hw hkk
      · rw [getD_set_other (Ne.symm hj)] at hw2
        exact h.huniq i j hij w hw w2 hw2
  · intro _ i w hw
    show w.key ≠ cur.key
    rcases eq_or_ne i pos with rfl | hi
    · rw [getD_set_self hposlen] at hw
      cases hw
      intro hkk
      -- the placed carried entry does not bear the occupant's key
      exact hcfree' i cur hcur hkk.symm
    · rw [getD_set_other (Ne.symm hi)] at hw
      exact h.huniq i pos hi w hw cur hcur

/-- Preservation of `WInv` across a non-displacing step. -/
theorem WInv.stayW {shift : Nat} {e : Entry} {bs0 : List (Option Entry)}
    {bs : List (Option Entry)} {c : Entry} {pos pc : Nat} {cur : Entry}
    (hplace0 : ∀ i, ∀ w ∈ bs0.getD i none,
      homeIdx shift w + w.dist_from_des = i ∧ w.dist_from_des < shift ∧
      w.hash = djb2_hash w.key ∧ ValidKey w.key)
    (h : WInv shift e bs0 bs c pos pc) (hpclt : pc < shift)
    (hcur : bs.getD pos none = some cur) (hkey : cur.key ≠ e.key)
    (hrep : ¬ cur.dist_from_des < c.dist_from_des) :
    WInv shift e bs0 bs
      { c with dist_from_des := c.dist_from_des + 1 } (pos + 1) (pc + 1) := by
  refine ⟨h.base.step_stay hplace0 hpclt hcur hkey hrep, ?_, ?_, h.hoccEq,
    h.hcount, ?_, h.huniq, ?_⟩
  · intro hk
    exact h.hbs0 hk
  · intro j h1 h2 w hw hlt
    rcases eq_or_ne j pos with rfl | hj
    · rw [hcur] at hw
      cases hw
      rw [← h.base.uframe j (Nat.le_refl _)]
      exact hcur
    · exact h.hwrit2 j h1 (by omega) w hw hlt
  · intro k d
    exact h.hexch k d
  · intro hk i w hw
    show w.key ≠ c.key
    exact h.hcfree (by simpa using hk) i w hw

/-- The insertion walk for a key absent from the table preserves `WInv`
and can only stop at the window bound or an empty slot. -/
theorem insertWalk_winv {shift : Nat} {e : Entry} {bs0 : List (Option Entry)}
    (hp0len : homeIdx shift e + shift ≤ bs0.length)
    (hplace0 : ∀ i, ∀ w ∈ bs0.getD i none,
      homeIdx shift w + w.dist_from_des = i ∧ w.dist_from_des < shift ∧
      w.hash = djb2_hash w.key ∧ ValidKey w.key)
    (hfresh : ∀ i, ∀ w ∈ bs0.getD i none, w.key ≠ e.key) :
    ∀ fuel bs c pos pc, fuel + pc = shift →
    WInv shift e bs0 bs c pos pc →
    ∃ bs1 pos1 pc1 rich,
      insertWalk shift e.key fuel bs c pos pc = (bs1, pos1, pc1, rich) ∧
      WInv shift e bs0 bs1 rich pos1 pc1 ∧
      (pc1 < shift → bs1.getD pos1 none = none) := by
  intro fuel
  induction fuel with
  | zero =>
    intro bs c pos pc hf h
    refine ⟨bs, pos, pc, c, rfl, h, ?_⟩
    intro hlt
    omega
  | succ fuel ih =>
    intro bs c pos pc hf h
    have hpclt : pc < shift := by omega
    rw [insertWalk, if_pos hpclt]
    rcases hslot : bs.getD pos none with _ | cur
    · exact ⟨bs, pos, pc, c, rfl, h, fun _ => hslot⟩
    · dsimp only
      have hkey : ¬ cur.key = e.key := by
        intro hk
        have hcur0 : bs0.getD pos none = some cur := by
          rw [← h.base.uframe pos (Nat.le_refl _)]
          exact hslot
        exact hfresh pos cur hcur0 hk
      rw [if_neg hkey]
      by_cases hrep : cur.dist_from_des < c.dist_from_des
      · rw [if_pos (by simpa [hash_table_should_replace_entry] using hrep)]
        exact ih _ _ _ _ (by omega)
          (h.swapW hp0len hplace0 hfresh hpclt hslot hkey hrep)
      · rw [if_neg (by simpa [hash_table_should_replace_entry] using hrep)]
        exact ih _ _ _ _ (by omega)
          (h.stayW hplace0 hpclt hslot hkey hrep)

/-- Setting an empty slot adds one binding. -/
theorem inB_set_exchange_empty {bs : List (Option Entry)} {pos : Nat} {c : Entry}
    (hposlen : pos < bs.length) (hempty : bs.getD pos none = none)
    (k : Key) (d : Nat) :
    inB (bs.set pos (some c)) k d ↔ (inB bs k d ∨ (c.key = k ∧ c.data = d)) := by
  constructor
  · rintro ⟨i, w, hw, hk, hd⟩
    rcases eq_or_ne i pos with rfl | hi
    · rw [getD_set_self hposlen] at hw
      cases hw
      exact Or.inr ⟨hk, hd⟩
    · rw [getD_set_other (Ne.symm hi)] at hw
      exact Or.inl ⟨i, w, hw, hk, hd⟩
  · rintro (⟨i, w, hw, hk, hd⟩ | ⟨hk, hd⟩)
    · have hi : i ≠ pos := by
        intro hip
        rw [hip, hempty] at hw
        exact Option.noConfusion hw
      exact ⟨i, w, by rw [getD_set_other (Ne.symm hi)]; exact hw, hk, hd⟩
    · exact ⟨pos, c, getD_set_self hposlen, hk, hd⟩

/-- Placing the carried entry of a finished fresh-key walk into the empty
slot it stopped at yields well-formed buckets holding exactly the old
bindings plus the inserted one. -/
theorem insert_place_fresh {shift : Nat} {e : Entry} {bs0 : List (Option Entry)}
    (hB : BucketsWF shift bs0)
    (hp0len : homeIdx shift e + shift ≤ bs0.length)
    (hfresh : ∀ i, ∀ w ∈ bs0.getD i none, w.key ≠ e.key)
    {bs1 : List (Option Entry)} {rich : Entry} {pos1 pc1 : Nat}
    (h : WInv shift e bs0 bs1 rich pos1 pc1)
    (hpc : pc1 < shift) (hempty : bs1.getD pos1 none = none) :
    BucketsWF shift (bs1.set pos1 (some rich)) ∧
    (bs1.set pos1 (some rich)).length = bs0.length ∧
    countOcc (bs1.set pos1 (some rich)) = countOcc bs0 + 1 ∧
    (∀ k d, inB (bs1.set pos1 (some rich)) k d ↔
      ((k ≠ e.key ∧ inB bs0 k d) ∨ (k = e.key ∧ d = e.data))) := by
  have upos := h.base.upos
  have upc := h.base.upc
  have ulen := h.base.ulen
  have uhome := h.base.uhome
  have hposlen : pos1 < bs1.length := by omega
  have homerich : homeIdx shift e ≤ homeIdx shift rich := by
    by_cases hc : rich.key = e.key
    · rw [h.base.ueq hc]
      exact Nat.le_refl _
    · exact Nat.le_of_lt (h.base.une hc)
  have hrichd : rich.dist_from_des < shift := by
    omega
  have hrichkey : ∀ i, ∀ w ∈ bs1.getD i none, w.key ≠ rich.key := by
    by_cases hc : rich.key = e.key
    · intro i w hw
      rw [h.hbs0 hc] at hw
      rw [hc]
      exact hfresh i w hw
    · exact h.hcfree hc
  refine ⟨⟨?_, ?_, ?_, ?_⟩, ?_, ?_, ?_⟩
  · -- placement facts
    intro i w hw
    rcases eq_or_ne i pos1 with rfl | hi
    · rw [getD_set_self hposlen] at hw
      cases hw
      exact ⟨uhome, hrichd, h.base.uhash, h.base.uvalid⟩
    · rw [getD_set_other (Ne.symm hi)] at hw
      by_cases hreg : homeIdx shift e ≤ i ∧ i < pos1
      · obtain ⟨w2, hw2, hp2, hd2, hh2, hv2⟩ := h.base.uwrit i hreg.1 hreg.2
        rw [hw2] at hw
        cases hw
        exact ⟨hp2, hd2, hh2, hv2⟩
      · have horig : bs1.getD i none = bs0.getD i none := by
          rcases Nat.lt_or_ge i (homeIdx shift e) with hlow | hhigh
          · exact h.base.uframeL i hlow
          · exact h.base.uframe i (by omega)
        rw [horig] at hw
        exact hB.place i w hw
  · -- key uniqueness
    intro i j hij w hw w2 hw2
    rcases eq_or_ne i pos1 with rfl | hi
    · rw [getD_set_self hposlen] at hw
      cases hw
      rw [getD_set_other hij] at hw2
      exact fun hkk => hrichkey j w2 hw2 hkk.symm
    · rw [getD_set_other (Ne.symm hi)] at hw
      rcases eq_or_ne j pos1 with rfl | hj
      · rw [getD_set_self hposlen] at hw2
        cases hw2
        exact fun hkk => hrichkey i w hw hkk
      · rw [getD_set_other (Ne.symm hj)] at hw2
        exact h.huniq i j hij w hw w2 hw2
  · -- gap-freeness
    intro i w hw j h1 h2
    have hocc : ∀ j', j' ≠ pos1 → bs1.getD j' none ≠ none →
        (bs1.set pos1 (some rich)).getD j' none ≠ none := by
      intro j' hj' hne
      rw [getD_set_other (Ne.symm hj')]
      exact hne
    rcases eq_or_ne j pos1 with rfl | hj
    · rw [getD_set_self hposlen]
      exact Option.noConfusion
    · rw [getD_set_other (Ne.symm hj)]
      rcases eq_or_ne i pos1 with rfl | hi
      · -- the new entry: everything from its home to its slot is occupied
        rw [getD_set_self hposlen] at hw
        cases hw
        obtain ⟨w2, hw2, -, -, -, -⟩ :=
          h.base.uwrit j (by omega) (by omega)
        rw [hw2]
        exact Option.noConfusion
      · rw [getD_set_other (Ne.symm hi)] at hw
        by_cases hreg : homeIdx shift e ≤ i ∧ i < pos1
        · -- a slot the walk has passed
          by_cases hlow : homeIdx shift w < homeIdx shift e
          · -- untouched original entry: its run is original and occupied
            have hw0 := h.hwrit2 i hreg.1 hreg.2 w hw hlow
            have hne0 := hB.gap i w hw0 j h1 h2
            intro hnone
            exact hne0 ((h.hoccEq j).mp hnone)
          · -- entry with home inside the walked range
            rcases Nat.lt_or_ge j pos1 with hjlt | hjge
            · obtain ⟨w2, hw2, -, -, -, -⟩ :=
                h.base.uwrit j (by omega) hjlt
              rw [hw2]
              exact Option.noConfusion
            · omega
        · -- a slot the walk has not touched: original entry
          have horig : bs1.getD i none = bs0.getD i none := by
            rcases Nat.lt_or_ge i (homeIdx shift e) with hlow | hhigh
            · exact h.base.uframeL i hlow
            · exact h.base.uframe i (by omega)
          rw [horig] at hw
          have hgap0 := hB.gap i w hw j h1 h2
          intro hnone
          exact hgap0 ((h.hoccEq j).mp hnone)
  · -- ordering
    intro j w hw w2 hw2
    rcases eq_or_ne j pos1 with rfl | hj
    · -- pair (pos1, pos1 + 1)
      rw [getD_set_self hposlen] at hw
      cases hw
      rw [getD_set_other (by omega)] at hw2
      rw [h.base.uframe (j + 1) (by omega)] at hw2
      -- the next slot's occupant cannot reach back across the empty slot
      have hw2p := hB.place (j + 1) w2 hw2
      by_cases hcross : homeIdx shift w2 ≤ j
      · exfalso
        have hne0 := hB.gap (j + 1) w2 hw2 j hcross (by omega)
        exact hne0 ((h.hoccEq j).mp hempty)
      · omega
    · rw [getD_set_other (Ne.symm hj)] at hw
      rcases eq_or_ne (j + 1) pos1 with hj1 | hj1
      · -- pair (pos1 - 1, pos1)
        rw [hj1, getD_set_self hposlen] at hw2
        cases hw2
        by_cases hp : homeIdx shift e < pos1
        · have huse := h.base.uprev hp w
          rw [← hj1] at huse
          have hsimp : j + 1 - 1 = j := by omega
          rw [hsimp] at huse
          exact huse hw
        · have hjlt : j < homeIdx shift e := by omega
          rw [h.base.uframeL j hjlt] at hw
          obtain ⟨hwp, -, -, -⟩ := hB.place j w hw
          omega
      · rw [getD_set_other (Ne.symm hj1)] at hw2
        exact h.base.uord j w hw w2 hw2
  · rw [List.length_set]
    exact ulen
  · rw [countOcc_set_none_some hposlen hempty]
    rw [h.hcount]
  · intro k d
    rw [inB_set_exchange_empty hposlen hempty]
    have hprev := h.hexch k d
    constructor
    · rintro (hin | ⟨hk, hd⟩)
      · rcases hprev.mp (Or.inl hin) with hin0 | ⟨hk, hd⟩
        · -- old binding; its key differs from the inserted key
          refine Or.inl ⟨?_, hin0⟩
          intro hkk
          obtain ⟨i0, w0, hw0, hk0, -⟩ := hin0
          exact hfresh i0 w0 hw0 (by rw [hk0, hkk])
        · exact Or.inr ⟨hk.symm, hd.symm⟩
      · rcases hprev.mp (Or.inr ⟨hk, hd⟩) with hin0 | ⟨hk2, hd2⟩
        · refine Or.inl ⟨?_, hin0⟩
          intro hkk
          obtain ⟨i0, w0, hw0, hk0, -⟩ := hin0
          exact hfresh i0 w0 hw0 (by rw [hk0, hkk])
        · exact Or.inr ⟨hk2.symm, hd2.symm⟩
    · rintro (⟨hne, hin0⟩ | ⟨hk, hd⟩)
      · rcases hprev.mpr (Or.inl hin0) with hin | ⟨hk, hd⟩
        · exact Or.inl hin
        · exact Or.inr ⟨hk, hd⟩
      · rcases hprev.mpr (Or.inr ⟨hk.symm, hd.symm⟩) with hin | ⟨hk2, hd2⟩
        · exact Or.inl hin
        · exact Or.inr ⟨hk2, hd2⟩


/-- When the inserted key is already stored (at slot `q`, necessarily on
the probe path from its home), the walk performs no swap and stops at the
occupant with the matching key, leaving the buckets untouched. -/
theorem insertWalk_replace {shift : Nat} {e : Entry} {bs0 : List (Option Entry)}
    (hB : BucketsWF shift bs0) (he_hash : e.hash = djb2_hash e.key)
    {q : Nat} {eq1 : Entry} (hq : bs0.getD q none = some eq1)
    (heqk : eq1.key = e.key) :
    ∀ fuel pos pc, fuel + pc = shift → pos = homeIdx shift e + pc → pos ≤ q →
    insertWalk shift e.key fuel bs0 { e with dist_from_des := pc } pos pc =
      (bs0, q, q - homeIdx shift e,
        { e with dist_from_des := q - homeIdx shift e }) := by
  have hqp := hB.place q eq1 hq
  have homeq : homeIdx shift eq1 = homeIdx shift e := by
    rw [homeIdx, homeIdx, hqp.2.2.1, heqk, he_hash]
  have hq1 : homeIdx shift e + eq1.dist_from_des = q := by
    rw [← homeq]; exact hqp.1
  have hq2 : eq1.dist_from_des < shift := hqp.2.1
  intro fuel
  induction fuel with
  | zero =>
    intro pos pc hf hpos hle
    omega
  | succ fuel ih =>
    intro pos pc hf hpos hle
    have hpclt : pc < shift := by omega
    rw [insertWalk, if_pos hpclt]
    rcases Nat.eq_or_lt_of_le hle with rfl | hlt
    · rw [hq]
      dsimp only
      rw [if_pos heqk]
      have hpc : pc = pos - homeIdx shift e := by omega
      subst hpc
      rfl
    · rcases hcur : bs0.getD pos none with _ | cur
      · exact absurd hcur (hB.gap q eq1 hq pos (by omega) (by omega))
      · dsimp only
        have hkey : ¬ cur.key = e.key := by
          intro hk
          have := hB.uniq pos q (by omega) cur hcur eq1 hq
          rw [hk, heqk] at this
          exact this rfl
        rw [if_neg hkey]
        have hchain : homeIdx shift cur ≤ homeIdx shift eq1 :=
          ord_chain shift bs0 hB.ord (q - pos) pos q (by omega)
            (fun j' hj1 hj2 => hB.gap q eq1 hq j' (by omega) hj2) cur hcur eq1 hq
        have hcurp := hB.place pos cur hcur
        have hcond : hash_table_should_replace_entry
            { e with dist_from_des := pc } cur = false := by
          simp only [hash_table_should_replace_entry, gt_iff_lt,
            decide_eq_false_iff_not, not_lt]
          show pc ≤ cur.dist_from_des
          omega
        rw [hcond, if_neg Bool.false_ne_true]
        have hrec : ({ ({ e with dist_from_des := pc } : Entry) with
            dist_from_des :=
              ({ e with dist_from_des := pc } : Entry).dist_from_des + 1 } :
            Entry) = { e with dist_from_des := pc + 1 } := rfl
        rw [hrec]
        exact ih (pos + 1) (pc + 1) (by omega) (by omega) (by omega)

/-- Writing the replacement entry over the matching occupant preserves the
structural invariant, length and occupancy count, and updates exactly the
binding for the inserted key. -/
theorem insert_place_replace {shift : Nat} {e : Entry} {bs0 : List (Option Entry)}
    (hB : BucketsWF shift bs0) (he_hash : e.hash = djb2_hash e.key)
    (he_valid : ValidKey e.key)
    {q : Nat} {eq1 : Entry} (hq : bs0.getD q none = some eq1)
    (heqk : eq1.key = e.key) :
    BucketsWF shift
      (bs0.set q (some { e with dist_from_des := q - homeIdx shift e })) ∧
    (bs0.set q
      (some { e with dist_from_des := q - homeIdx shift e })).length =
        bs0.length ∧
    countOcc
      (bs0.set q (some { e with dist_from_des := q - homeIdx shift e })) =
        countOcc bs0 ∧
    (∀ k d,
      inB (bs0.set q (some { e with dist_from_des := q - homeIdx shift e }))
          k d ↔
        ((k ≠ e.key ∧ inB bs0 k d) ∨ (k = e.key ∧ d = e.data))) := by
  have hqp := hB.place q eq1 hq
  have homeq : homeIdx shift eq1 = homeIdx shift e := by
    rw [homeIdx, homeIdx, hqp.2.2.1, heqk, he_hash]
  have hq1 : homeIdx shift e + eq1.dist_from_des = q := by
    rw [← homeq]; exact hqp.1
  have hq2 : eq1.dist_from_des < shift := hqp.2.1
  have hqlen : q < bs0.length := lt_length_of_getD_some hq
  refine ⟨⟨?_, ?_, ?_, ?_⟩, List.length_set bs0 q _, countOcc_set_some hq, ?_⟩
  · intro i w hw
    rcases eq_or_ne i q with rfl | hi
    · rw [getD_set_self hqlen] at hw
      cases hw
      refine ⟨?_, ?_, he_hash, he_valid⟩
      · show homeIdx shift e + (i - homeIdx shift e) = i
        omega
      · show i - homeIdx shift e < shift
        omega
    · rw [getD_set_other (Ne.symm hi)] at hw
      exact hB.place i w hw
  · intro i j hij w hw w2 hw2
    rcases eq_or_ne i q with rfl | hi
    · rw [getD_set_self hqlen] at hw
      cases hw
      rw [getD_set_other hij] at hw2
      have := hB.uniq i j hij eq1 hq w2 hw2
      show e.key ≠ w2.key
      rw [← heqk]
      exact this
    · rw [getD_set_other (Ne.symm hi)] at hw
      rcases eq_or_ne j q with rfl | hj
      · rw [getD_set_self hqlen] at hw2
        cases hw2
        have := hB.uniq i j hij w hw eq1 hq
        show w.key ≠ e.key
        rw [← heqk]
        exact this
      · rw [getD_set_other (Ne.symm hj)] at hw2
        exact hB.uniq i j hij w hw w2 hw2
  · intro i w hw j h1 h2
    have hsrc : bs0.getD j none ≠ none := by
      rcases eq_or_ne i q with rfl | hi
      · rw [getD_set_self hqlen] at hw
        cases hw
        have h1' : homeIdx shift e ≤ j := h1
        exact hB.gap i eq1 hq j (by omega) h2
      · rw [getD_set_other (Ne.symm hi)] at hw
        exact hB.gap i w hw j h1 h2
    rcases eq_or_ne j q with rfl | hjq
    · rw [getD_set_self hqlen]
      intro hc
      exact Option.noConfusion hc
    · rw [getD_set_other (Ne.symm hjq)]
      exact hsrc
  · intro j w hw w2 hw2
    rcases eq_or_ne j q with rfl | hj
    · rw [getD_set_self hqlen] at hw
      cases hw
      have hne : j ≠ j + 1 := by omega
      rw [getD_set_other hne] at hw2
      show homeIdx shift e ≤ homeIdx shift w2
      rw [← homeq]
      exact hB.ord j eq1 hq w2 hw2
    · rw [getD_set_other (Ne.symm hj)] at hw
      rcases eq_or_ne (j + 1) q with hj1 | hj1
      · rw [hj1, getD_set_self hqlen] at hw2
        cases hw2
        show homeIdx shift w ≤ homeIdx shift e
        rw [← homeq]
        refine hB.ord j w hw eq1 ?_
        rw [hj1]
        exact hq
      · rw [getD_set_other (Ne.symm hj1)] at hw2
        exact hB.ord j w hw w2 hw2
  · intro k d
    rw [inB_set_exchange hq]
    constructor
    · rintro (⟨i, w, hi, hw, hk, hd⟩ | ⟨hk, hd⟩)
      · refine Or.inl ⟨?_, ⟨i, w, hw, hk, hd⟩⟩
        intro hke
        have := hB.uniq i q hi w hw eq1 hq
        rw [hk, hke, heqk] at this
        exact this rfl
      · refine Or.inr ⟨?_, ?_⟩
        · exact hk.symm
        · exact hd.symm
    · rintro (⟨hne, ⟨i, w, hw, hk, hd⟩⟩ | ⟨hk, hd⟩)
      · refine Or.inl ⟨i, w, ?_, hw, hk, hd⟩
        intro hiq
        rw [hiq, hq] at hw
        cases hw
        exact hne (by rw [← hk, heqk])
      · refine Or.inr ⟨?_, ?_⟩
        · show e.key = k
          exact hk.symm
        · show e.data = d
          exact hd.symm

/-! ## Resize and rehash -/

theorem getD_replicate (n i : Nat) :
    (List.replicate n (none : Option Entry)).getD i none = none := by
  induction n generalizing i with
  | zero => rfl
  | succ n ih =>
    cases i with
    | zero => rfl
    | succ j => exact ih j

theorem countOcc_replicate (n : Nat) :
    countOcc (List.replicate n (none : Option Entry)) = 0 := by
  induction n with
  | zero => rfl
  | succ n ih => simpa [countOcc, List.replicate, List.countP_cons] using ih

/-- Membership in the bucket list, expressed through `getD`. -/
theorem mem_iff_getD {bs : List (Option Entry)} {w : Entry} :
    (some w) ∈ bs ↔ ∃ i, bs.getD i none = some w := by
  constructor
  · intro hmem
    induction bs with
    | nil => cases hmem
    | cons hd tl ih =>
      rcases List.mem_cons.mp hmem with rfl | htl
      · exact ⟨0, rfl⟩
      · obtain ⟨i, hi⟩ := ih htl
        exact ⟨i + 1, hi⟩
  · rintro ⟨i, hi⟩
    induction bs generalizing i with
    | nil => rw [getD_of_length_le (by simp)] at hi; exact Option.noConfusion hi
    | cons hd tl ih =>
      cases i with
      | zero =>
        simp only [List.getD] at hi
        rw [show hd = some w from by simpa using hi]
        exact List.mem_cons_self (some w) tl
      | succ j =>
        exact List.mem_cons_of_mem hd (ih j hi)

/-- `Corr` only depends on the pointwise behaviour of the map. -/
theorem corr_congr {t : Table} {m m' : Key → Option Nat}
    (h : Corr t m) (he : ∀ k, m k = m' k) : Corr t m' := by
  obtain ⟨hwf, h1, h2⟩ := h
  refine ⟨hwf, ?_, ?_⟩
  · intro i hi e hei
    rw [← he]
    exact h1 i hi e hei
  · intro k d hk
    rw [← he] at hk
    exact h2 k d hk

/-- The freshly allocated table of a resize corresponds to the empty
map. -/
theorem corr_empty {sh mx : Nat} (hmx : mx = 2 ^ sh)
    (h4 : HASH_TABLE_INITIAL_SHIFT ≤ sh) :
    Corr { max_size_shift := sh, max_size := mx, curr_size := 0,
           buckets := List.replicate (mx + sh) none }
      (fun _ => none) := by
  refine ⟨⟨hmx, h4, by simp, (countOcc_replicate _).symm, ?_, ?_, ?_, ?_⟩, ?_, ?_⟩
  · intro i _ e he
    rw [getD_replicate] at he
    exact absurd he (Option.noConfusion)
  · intro i _ j _ _ e he
    rw [getD_replicate] at he
    exact absurd he (Option.noConfusion)
  · intro i _ e he
    rw [getD_replicate] at he
    exact absurd he (Option.noConfusion)
  · intro i _ e he
    rw [getD_replicate] at he
    exact absurd he (Option.noConfusion)
  · intro i _ e he
    rw [getD_replicate] at he
    exact absurd he (Option.noConfusion)
  · intro k d hk
    exact Option.noConfusion hk

/-- Soundness of the rehash loop: reinserting (with reset displacement)
every entry of the old bucket list into a table that corresponds to the
partially rebuilt map yields a table corresponding to the full map `m`,
provided each insertion behaves like a sound fresh-key insertion. -/
theorem rehashGo_sound (ins : Table → Entry → Option (Bool × Table))
    (hins : ∀ ta macc e b t', Corr ta macc → e.dist_from_des = 0 →
      e.hash = djb2_hash e.key → ValidKey e.key → ins ta e = some (b, t') →
      b = true ∧ Corr t' (mapUpdate macc e.key e.data) ∧
      (macc e.key = none → t'.curr_size = ta.curr_size + 1))
    (m : Key → Option Nat) :
    ∀ rest ta macc, Corr ta macc →
    (∀ w, (some w) ∈ rest → w.hash = djb2_hash w.key ∧ ValidKey w.key ∧
      macc w.key = none) →
    List.Pairwise (fun o1 o2 => ∀ w1 ∈ o1, ∀ w2 ∈ o2, w1.key ≠ w2.key) rest →
    (∀ k d, m k = some d ↔
      (macc k = some d ∨ ∃ w, (some w) ∈ rest ∧ w.key = k ∧ w.data = d)) →
    ∀ t'', rehashGo ins ta rest = some t'' →
    Corr t'' m ∧ t''.curr_size = ta.curr_size + countOcc rest := by
  intro rest
  induction rest with
  | nil =>
    intro ta macc hc hent hpw hiff t'' hres
    cases hres
    have hpt : ∀ k, macc k = m k := by
      intro k
      rcases hmk : macc k with _ | d
      · rcases hmk2 : m k with _ | d2
        · rfl
        · rcases (hiff k d2).mp hmk2 with hl | ⟨w, hmem, -, -⟩
          · rw [hmk] at hl
            exact Option.noConfusion hl
          · cases hmem
      · exact ((hiff k d).mpr (Or.inl hmk)).symm
    refine ⟨corr_congr hc hpt, ?_⟩
    simp [countOcc]
  | cons hd rest ih =>
    intro ta macc hc hent hpw hiff t'' hres
    rcases hd with _ | w
    · rw [rehashGo] at hres
      refine (ih ta macc hc ?_ (List.pairwise_cons.mp hpw).2 ?_ t'' hres).imp
        id ?_
      · intro w2 hmem
        exact hent w2 (List.mem_cons_of_mem _ hmem)
      · intro k d
        rw [hiff k d]
        constructor
        · rintro (hl | ⟨w2, hmem, hk, hd2⟩)
          · exact Or.inl hl
          · rcases List.mem_cons.mp hmem with heq | hmem2
            · exact Option.noConfusion heq
            · exact Or.inr ⟨w2, hmem2, hk, hd2⟩
        · rintro (hl | ⟨w2, hmem, hk, hd2⟩)
          · exact Or.inl hl
          · exact Or.inr ⟨w2, List.mem_cons_of_mem _ hmem, hk, hd2⟩
      · intro hsz
        rw [hsz]
        simp [countOcc, List.countP_cons]
    · obtain ⟨hwh, hwv, hwn⟩ := hent w (List.mem_cons_self _ _)
      have hhead := (List.pairwise_cons.mp hpw).1
      have hpwt := (List.pairwise_cons.mp hpw).2
      rw [rehashGo] at hres
      rcases hinsres : ins ta { w with dist_from_des := 0 } with _ | p
      · rw [hinsres] at hres
        exact Option.noConfusion hres
      · rcases p with ⟨b, t'⟩
        rw [hinsres] at hres
        dsimp only at hres
        obtain ⟨-, hcorr', hsz'⟩ :=
          hins ta macc { w with dist_from_des := 0 } b t' hc rfl hwh hwv hinsres
        have hsz1 : t'.curr_size = ta.curr_size + 1 := hsz' hwn
        have hcorr'' : Corr t' (mapUpdate macc w.key w.data) := hcorr'
        have hres' := ih t' (mapUpdate macc w.key w.data) hcorr'' ?_ hpwt ?_ t'' hres
        · refine hres'.imp id ?_
          intro hsz
          rw [hsz, hsz1]
          simp only [countOcc, List.countP_cons]
          simp [countOcc] at *
          omega
        · intro w2 hmem
          obtain ⟨h1, h2, h3⟩ := hent w2 (List.mem_cons_of_mem _ hmem)
          refine ⟨h1, h2, ?_⟩
          have hne : w.key ≠ w2.key := hhead (some w2) hmem w rfl w2 rfl
          rw [mapUpdate, if_neg (Ne.symm hne)]
          exact h3
        · intro k d
          rw [hiff k d]
          by_cases hk : k = w.key
          · subst hk
            rw [mapUpdate, if_pos rfl]
            constructor
            · rintro (hl | ⟨w2, hmem, hk2, hd2⟩)
              · rw [hwn] at hl
                exact Option.noConfusion hl
              · rcases List.mem_cons.mp hmem with heq | hmem2
                · cases heq
                  exact Or.inl (by rw [hd2])
                · exact absurd hk2 (hhead (some w2) hmem2 w rfl w2 rfl).symm
            · rintro (hl | ⟨w2, hmem, hk2, hd2⟩)
              · cases hl
                exact Or.inr ⟨w, List.mem_cons_self _ _, rfl, rfl⟩
              · exact absurd hk2 (hhead (some w2) hmem w rfl w2 rfl).symm
          · rw [mapUpdate, if_neg hk]
            constructor
            · rintro (hl | ⟨w2, hmem, hk2, hd2⟩)
              · exact Or.inl hl
              · rcases List.mem_cons.mp hmem with heq | hmem2
                · cases heq
                  exact absurd hk2.symm hk
                · exact Or.inr ⟨w2, hmem2, hk2, hd2⟩
            · rintro (hl | ⟨w2, hmem, hk2, hd2⟩)
              · exact Or.inl hl
              · exact Or.inr ⟨w2, List.mem_cons_of_mem _ hmem, hk2, hd2⟩

theorem resizeGo_true (ins : Table → Entry → Option (Bool × Table))
    (t : Table) (amt : Int) :
    resizeGo ins true t amt =
      match rehashGo ins
        { max_size_shift := ((t.max_size_shift : Int) + amt).toNat,
          max_size := if amt ≥ 0 then t.max_size <<< amt.toNat
            else t.max_size >>> (-amt).toNat,
          curr_size := 0,
          buckets := List.replicate
            ((if amt ≥ 0 then t.max_size <<< amt.toNat
              else t.max_size >>> (-amt).toNat) +
             ((t.max_size_shift : Int) + amt).toNat) none }
        t.buckets with
      | none => none
      | some t'' => some (true, t'') := rfl

/-- Soundness of `hash_table_resize` with a successful allocation: the
resized table corresponds to the same abstract map and keeps the size
counter, for a grow step or (above the minimum exponent) a shrink step. -/
theorem resizeGo_sound {ins : Table → Entry → Option (Bool × Table)}
    (hins : ∀ ta macc e b t', Corr ta macc → e.dist_from_des = 0 →
      e.hash = djb2_hash e.key → ValidKey e.key → ins ta e = some (b, t') →
      b = true ∧ Corr t' (mapUpdate macc e.key e.data) ∧
      (macc e.key = none → t'.curr_size = ta.curr_size + 1))
    {t : Table} {m : Key → Option Nat} (hc : Corr t m) {amt : Int}
    (hamt : amt = 1 ∨
      (amt = -1 ∧ HASH_TABLE_INITIAL_SHIFT < t.max_size_shift))
    {b : Bool} {t' : Table} (hres : resizeGo ins true t amt = some (b, t')) :
    b = true ∧ Corr t' m ∧ t'.curr_size = t.curr_size := by
  have hwf := hc.1
  obtain ⟨hmax, hK0, hlen, hcount, hplace, huniq, -, -⟩ := hwf
  rw [resizeGo_true] at hres
  have hmain : ∀ sh' : Nat,
      ((t.max_size_shift : Int) + amt).toNat = sh' →
      (if amt ≥ 0 then t.max_size <<< amt.toNat
        else t.max_size >>> (-amt).toNat) = 2 ^ sh' →
      HASH_TABLE_INITIAL_SHIFT ≤ sh' →
      b = true ∧ Corr t' m ∧ t'.curr_size = t.curr_size := by
    intro sh' hsh hmx h4
    rw [hsh, hmx] at hres
    rcases hre : rehashGo ins
        { max_size_shift := sh', max_size := 2 ^ sh', curr_size := 0,
          buckets := List.replicate (2 ^ sh' + sh') none } t.buckets
      with _ | t''
    · rw [hre] at hres
      exact Option.noConfusion hres
    · rw [hre] at hres
      dsimp only at hres
      obtain ⟨hb, ht'⟩ : true = b ∧ t'' = t' := by
        refine ⟨?_, ?_⟩ <;> cases hres <;> rfl
      subst hb
      subst ht'
      have hsound := rehashGo_sound ins hins m t.buckets
        { max_size_shift := sh', max_size := 2 ^ sh', curr_size := 0,
          buckets := List.replicate (2 ^ sh' + sh') none }
        (fun _ => none) (corr_empty rfl h4) ?_ ?_ ?_ t'' hre
      · refine ⟨rfl, hsound.1, ?_⟩
        have := hsound.2
        dsimp at this
        omega
      · intro w hmem
        obtain ⟨i, hg⟩ := mem_iff_getD.mp hmem
        have hp := hplace i (lt_length_of_getD_some hg) w hg
        exact ⟨hp.2.2.1, hp.2.2.2, rfl⟩
      · refine List.pairwise_iff_getElem.mpr ?_
        intro i j hi hj hij
        intro w1 hw1 w2 hw2
        rw [Option.mem_def] at hw1 hw2
        have hg1 : t.buckets.getD i none = some w1 := by
          rw [List.getD_eq_getElem _ _ hi]; exact hw1
        have hg2 : t.buckets.getD j none = some w2 := by
          rw [List.getD_eq_getElem _ _ hj]; exact hw2
        exact huniq i hi j hj (Nat.ne_of_lt hij) w1 hg1 w2 hg2
      · intro k d
        constructor
        · intro hk
          obtain ⟨i, e, hg, hke, hde⟩ := hc.2.2 k d hk
          exact Or.inr ⟨e, mem_iff_getD.mpr ⟨i, hg⟩, hke, hde⟩
        · rintro (hl | ⟨w, hmem, hk, hd⟩)
          · exact Option.noConfusion hl
          · obtain ⟨i, hg⟩ := mem_iff_getD.mp hmem
            have := hc.2.1 i (lt_length_of_getD_some hg) w hg
            rw [hk, hd] at this
            exact this
  rcases hamt with rfl | ⟨rfl, hgt⟩
  · refine hmain (t.max_size_shift + 1) (by omega) ?_ (by omega)
    rw [if_pos (by norm_num)]
    rw [Nat.shiftLeft_eq, hmax]
    show 2 ^ t.max_size_shift * 2 ^ (1 : Int).toNat = 2 ^ (t.max_size_shift + 1)
    rw [pow_succ]
    rfl
  · refine hmain (t.max_size_shift - 1) (by omega) ?_ (by
      unfold HASH_TABLE_INITIAL_SHIFT at hgt ⊢
      omega)
    rw [if_neg (by norm_num)]
    rw [Nat.shiftRight_eq_div_pow, hmax]
    show 2 ^ t.max_size_shift / 2 ^ (-(-1) : Int).toNat = 2 ^ (t.max_size_shift - 1)
    have h1 : (-(-1) : Int).toNat = 1 := by norm_num
    rw [h1]
    refine Nat.pow_div ?_ (by norm_num)
    unfold HASH_TABLE_INITIAL_SHIFT at hgt
    omega

/-- Rebuilding the correspondence after an insertion wrote new buckets
whose bindings are the old ones with the inserted key's binding
exchanged. -/
theorem corr_update {t : Table} {m : Key → Option Nat} (hold : Corr t m)
    {bs2 : List (Option Entry)} {e : Entry} {sz : Nat}
    (hB2 : BucketsWF t.max_size_shift bs2)
    (hlen2 : bs2.length = t.buckets.length)
    (hsz : sz = countOcc bs2)
    (hiff : ∀ k d, inB bs2 k d ↔
      ((k ≠ e.key ∧ inB t.buckets k d) ∨ (k = e.key ∧ d = e.data))) :
    Corr { t with buckets := bs2, curr_size := sz }
      (mapUpdate m e.key e.data) := by
  obtain ⟨⟨hmax, hK0, hlen, hcount, -, -, -, -⟩, hfwd, hbwd⟩ := hold
  have hm_of_inB : ∀ k d, inB t.buckets k d → m k = some d := by
    rintro k d ⟨i, w, hw, hk, hd⟩
    have := hfwd i (lt_length_of_getD_some hw) w hw
    rw [hk, hd] at this
    exact this
  have hinB_of_m : ∀ k d, m k = some d → inB t.buckets k d := by
    intro k d hk
    obtain ⟨i, w, hw, hke, hde⟩ := hbwd k d hk
    exact ⟨i, w, hw, hke, hde⟩
  refine ⟨WF.of_parts hmax hK0 (hlen2.trans hlen) hsz hB2, ?_, ?_⟩
  · intro i _ w hw
    have hin : inB bs2 w.key w.data := ⟨i, w, hw, rfl, rfl⟩
    rcases (hiff w.key w.data).mp hin with ⟨hne, hin0⟩ | ⟨hk, hd⟩
    · rw [mapUpdate, if_neg hne]
      exact hm_of_inB _ _ hin0
    · rw [mapUpdate, if_pos hk, hd]
  · intro k d hk
    rw [mapUpdate] at hk
    by_cases hke : k = e.key
    · rw [if_pos hke] at hk
      have hin : inB bs2 k d := by
        rw [hiff]
        cases hk
        exact Or.inr ⟨hke, rfl⟩
      obtain ⟨i, w, hw, hkw, hdw⟩ := hin
      exact ⟨i, w, hw, hkw, hdw⟩
    · rw [if_neg hke] at hk
      have hin : inB bs2 k d := by
        rw [hiff]
        exact Or.inl ⟨hke, hinB_of_m k d hk⟩
      obtain ⟨i, w, hw, hkw, hdw⟩ := hin
      exact ⟨i, w, hw, hkw, hdw⟩

/-- Soundness of `hash_table_insert` against the abstract map: a completed
insertion either fails under allocation failure leaving the table exactly
as it was, or succeeds, after which the table corresponds to the updated
map, with the size counter incremented exactly when the key was fresh. -/
theorem insertF_sound :
    ∀ fuel : Nat, ∀ alloc : Bool, ∀ t : Table, ∀ m : Key → Option Nat,
    ∀ e : Entry, ∀ b : Bool, ∀ t' : Table,
    Corr t m → e.dist_from_des = 0 → e.hash = djb2_hash e.key →
    ValidKey e.key → insertF fuel alloc t e = some (b, t') →
    (b = false → alloc = false ∧ t' = t) ∧
    (b = true → Corr t' (mapUpdate m e.key e.data) ∧
      (m e.key = none → t'.curr_size = t.curr_size + 1) ∧
      (m e.key ≠ none → t'.curr_size = t.curr_size)) := by
  intro fuel
  induction fuel with
  | zero =>
    intro alloc t m e b t' hc hd hh hv hres
    rw [insertF] at hres
    exact Option.noConfusion hres
  | succ fuel ih =>
    intro alloc t m e b t' hc hd hh hv hres
    have hwf := hc.1
    have hB := WF.bucketsWF hwf
    obtain ⟨hmax, hK0, hlen, hcount, hplace, -, -, -⟩ := hwf
    have hK04 : 4 ≤ t.max_size_shift := hK0
    have hp0len : homeIdx t.max_size_shift e + t.max_size_shift ≤
        t.buckets.length := by
      have hfib : homeIdx t.max_size_shift e < 2 ^ t.max_size_shift :=
        fibonacci_hash_lt e.hash t.max_size_shift
      omega
    have hee : ({ e with dist_from_des := 0 } : Entry) = e := by
      rw [← hd]
    simp only [insertF] at hres
    rcases hmk : m e.key with _ | d0
    · -- fresh key
      have hfresh : ∀ i, ∀ w ∈ t.buckets.getD i none, w.key ≠ e.key := by
        intro i w hw hk
        have := hc.2.1 i (lt_length_of_getD_some hw) w hw
        rw [hk, hmk] at this
        exact Option.noConfusion this
      obtain ⟨bs1, pos1, pc1, rich, hweq, hwinv, hstop⟩ :=
        insertWalk_winv hp0len hB.place hfresh t.max_size_shift t.buckets e
          (homeIdx t.max_size_shift e) 0 (by omega)
          (WInv.initW hB hd hh hv)
      have hweq' : insertWalk t.max_size_shift e.key t.max_size_shift
          t.buckets e (fibonacci_hash e.hash t.max_size_shift) 0 =
          (bs1, pos1, pc1, rich) := hweq
      rw [hweq'] at hres
      dsimp only at hres
      by_cases hfound : pc1 < t.max_size_shift
      · rw [if_pos (by
          simp only [hash_table_is_next_found, decide_eq_true_eq]
          exact hfound)] at hres
        rw [hstop hfound] at hres
        dsimp only at hres
        obtain ⟨rfl, rfl⟩ : b = true ∧
            t' = { t with buckets := bs1.set pos1 (some rich),
                          curr_size := t.curr_size + 1 } := by
          refine ⟨?_, ?_⟩ <;> cases hres <;> rfl
        obtain ⟨hB2, hlen2, hcnt2, hiff2⟩ :=
          insert_place_fresh hB hp0len hfresh hwinv hfound (hstop hfound)
        have hlen0 := hwinv.base.ulen
        refine ⟨fun hb => Bool.noConfusion hb, fun _ => ⟨?_, ?_, ?_⟩⟩
        · exact corr_update hc hB2 (by rw [hlen2]) (by omega) hiff2
        · intro _
          rfl
        · intro hne
          exact absurd rfl hne
      · rw [if_neg (by
          simp only [hash_table_is_next_found, decide_eq_true_eq]
          exact hfound)] at hres
        have hpc1 : pc1 = t.max_size_shift := by
          have := hwinv.base.upc
          omega
        subst hpc1
        have hpos1 : pos1 = homeIdx t.max_size_shift e + t.max_size_shift := by
          have := hwinv.base.upos
          omega
        rw [hpos1] at hres
        have huw : unwindFrom e bs1 rich
            (homeIdx t.max_size_shift e + t.max_size_shift - 1) =
            t.buckets := by
          have h := insertWalk_unwind hp0len hB.place (by omega)
            t.max_size_shift t.buckets e (homeIdx t.max_size_shift e) 0
            (by omega) (UInv.init hB hd hh hv) bs1 pos1 rich hweq
          rw [if_pos rfl] at h
          exact h
        rw [huw] at hres
        cases alloc with
        | false =>
          have hrz : resizeGo (insertF fuel false) false
              { t with buckets := t.buckets } 1 =
              some (false, { t with buckets := t.buckets }) := rfl
          rw [hrz] at hres
          obtain ⟨rfl, rfl⟩ : b = false ∧
              t' = { t with buckets := t.buckets } := by
            refine ⟨?_, ?_⟩ <;> cases hres <;> rfl
          exact ⟨fun _ => ⟨rfl, rfl⟩, fun hb => Bool.noConfusion hb⟩
        | true =>
          rcases hrz : resizeGo (insertF fuel true) true
              { t with buckets := t.buckets } 1 with _ | p
          · rw [hrz] at hres
            exact Option.noConfusion hres
          · rcases p with ⟨b2, t2⟩
            rw [hrz] at hres
            have hins : ∀ ta macc e2 b3 t3, Corr ta macc →
                e2.dist_from_des = 0 → e2.hash = djb2_hash e2.key →
                ValidKey e2.key →
                insertF fuel true ta e2 = some (b3, t3) →
                b3 = true ∧ Corr t3 (mapUpdate macc e2.key e2.data) ∧
                (macc e2.key = none → t3.curr_size = ta.curr_size + 1) := by
              intro ta macc e2 b3 t3 h1 h2 h3 h4 h5
              have h := ih true ta macc e2 b3 t3 h1 h2 h3 h4 h5
              cases b3 with
              | false => exact absurd (h.1 rfl).1 (by simp)
              | true => exact ⟨rfl, (h.2 rfl).1, fun hn => (h.2 rfl).2.1 hn⟩
            obtain ⟨hb2, hcorr2, hsz2⟩ := resizeGo_sound hins hc (Or.inl rfl) hrz
            subst hb2
            dsimp only at hres
            rw [hee] at hres
            have h := ih true t2 m e b t' hcorr2 hd hh hv hres
            refine ⟨fun hb => absurd (h.1 hb).1 (by simp), fun hb => ?_⟩
            obtain ⟨hco, hs1, hs2⟩ := h.2 hb
            refine ⟨hco, ?_, ?_⟩
            · intro hn
              rw [hs1 hmk, hsz2]
            · intro hne
              exact absurd rfl hne
    · -- the key is already present: replacement
      obtain ⟨q, eq1, hq, hkeq, hdeq⟩ := hc.2.2 e.key d0 hmk
      have hqp := hB.place q eq1 hq
      have homeq : homeIdx t.max_size_shift eq1 =
          homeIdx t.max_size_shift e := by
        rw [homeIdx, homeIdx, hqp.2.2.1, hkeq, hh]
      have hq1 : homeIdx t.max_size_shift e + eq1.dist_from_des = q := by
        rw [← homeq]; exact hqp.1
      have hq2 : eq1.dist_from_des < t.max_size_shift := hqp.2.1
      have hwalk := insertWalk_replace hB hh hq hkeq t.max_size_shift
        (homeIdx t.max_size_shift e) 0 (by omega) (by omega) (by omega)
      rw [hee] at hwalk
      have hwalk' : insertWalk t.max_size_shift e.key t.max_size_shift
          t.buckets e (fibonacci_hash e.hash t.max_size_shift) 0 =
          (t.buckets, q, q - homeIdx t.max_size_shift e,
            { e with dist_from_des := q - homeIdx t.max_size_shift e }) :=
        hwalk
      rw [hwalk'] at hres
      dsimp only at hres
      rw [if_pos (by
        simp only [hash_table_is_next_found, decide_eq_true_eq]
        omega)] at hres
      rw [hq] at hres
      dsimp only at hres
      obtain ⟨rfl, rfl⟩ : b = true ∧ t' = { t with buckets := t.buckets.set q (some { e with dist_from_des := q - homeIdx t.max_size_shift e }) } := by
        refine ⟨?_, ?_⟩ <;> cases hres <;> rfl
      obtain ⟨hB2, hlen2, hcnt2, hiff2⟩ :=
        insert_place_replace hB hh hv hq hkeq
      refine ⟨fun hb => Bool.noConfusion hb, fun _ => ⟨?_, ?_, ?_⟩⟩
      · exact corr_update hc hB2 hlen2 (by omega) hiff2
      · intro hn
        exact Option.noConfusion hn
      · intro _
        rfl

/-! ## Back-shift deletion -/

/-- Invariant of the back-shift loop of `hash_table_remove_from_position`,
relative to the pre-removal buckets `bs0` and the removal position `p`:
the slot just behind the cursor is empty (the hole), each slot between `p`
and the hole holds the original occupant of the following slot moved back
one step (displacement decremented), and everything else is untouched. -/
structure RInv (bs0 : List (Option Entry)) (p : Nat)
    (bs : List (Option Entry)) (pos : Nat) : Prop where
  rpos : p + 1 ≤ pos
  rlen : bs.length = bs0.length
  rhole : bs.getD (pos - 1) none = none
  rlow : ∀ j, j < p → bs.getD j none = bs0.getD j none
  rhigh : ∀ j, pos ≤ j → bs.getD j none = bs0.getD j none
  rshift : ∀ j, p ≤ j → j < pos - 1 →
    ∃ w, bs0.getD (j + 1) none = some w ∧ 0 < w.dist_from_des ∧
      bs.getD j none = some { w with dist_from_des := w.dist_from_des - 1 }

/-- At any stop of the back-shift loop (cursor out of bounds, empty slot,
or an entry already at its home), the current state satisfies the
structural invariant. -/
theorem rinv_wf {shift : Nat} {bs0 : List (Option Entry)}
    (hB : BucketsWF shift bs0) {p : Nat} {victim : Entry}
    (hvic : bs0.getD p none = some victim)
    {bs : List (Option Entry)} {pos : Nat}
    (h : RInv bs0 p bs pos)
    (hstop : bs0.length ≤ pos ∨ bs.getD pos none = none ∨
      ∃ z, bs.getD pos none = some z ∧ z.dist_from_des = 0) :
    BucketsWF shift bs := by
  have hrp := h.rpos
  have hclass : ∀ i w, bs.getD i none = some w →
      ((i < p ∨ pos ≤ i) ∧ bs0.getD i none = some w) ∨
      (p ≤ i ∧ i < pos - 1 ∧ ∃ w0, bs0.getD (i + 1) none = some w0 ∧
        0 < w0.dist_from_des ∧
        w = { w0 with dist_from_des := w0.dist_from_des - 1 }) := by
    intro i w hw
    rcases Nat.lt_or_ge i p with hip | hip
    · refine Or.inl ⟨Or.inl hip, ?_⟩
      rw [← h.rlow i hip]
      exact hw
    · rcases Nat.lt_or_ge i (pos - 1) with hip2 | hip2
      · obtain ⟨w0, h1, h2, h3⟩ := h.rshift i hip hip2
        rw [hw] at h3
        refine Or.inr ⟨hip, hip2, w0, h1, h2, ?_⟩
        cases h3
        rfl
      · have hpos_le : pos ≤ i := by
          rcases Nat.eq_or_lt_of_le hip2 with heq | hlt
          · exfalso
            rw [← heq, h.rhole] at hw
            exact Option.noConfusion hw
          · omega
        refine Or.inl ⟨Or.inr hpos_le, ?_⟩
        rw [← h.rhigh i hpos_le]
        exact hw
  have hhigh_home : ∀ i w, pos ≤ i → bs0.getD i none = some w →
      pos ≤ homeIdx shift w := by
    intro i w hi hw
    rcases hstop with hL | hnone | ⟨z, hz, hz0⟩
    · exfalso
      rw [getD_of_length_le (by omega)] at hw
      exact Option.noConfusion hw
    · have hnone0 : bs0.getD pos none = none := by
        rw [← h.rhigh pos (Nat.le_refl _)]
        exact hnone
      rcases Nat.eq_or_lt_of_le hi with heq | hlt
      · exfalso
        rw [← heq, hnone0] at hw
        exact Option.noConfusion hw
      · by_contra hc
        push_neg at hc
        exact hB.gap i w hw pos (by omega) (by omega) hnone0
    · have hz0' : bs0.getD pos none = some z := by
        rw [← h.rhigh pos (Nat.le_refl _)]
        exact hz
      have hzp := hB.place pos z hz0'
      have hzhome : homeIdx shift z = pos := by omega
      rcases Nat.eq_or_lt_of_le hi with heq | hlt
      · rw [← heq, hz0'] at hw
        cases hw
        omega
      · by_contra hc
        push_neg at hc
        have hchain : homeIdx shift z ≤ homeIdx shift w :=
          ord_chain shift bs0 hB.ord (i - pos) pos i (by omega)
            (fun j' hj1 hj2 => hB.gap i w hw j' (by omega) hj2) z hz0' w hw
        omega
  refine ⟨?_, ?_, ?_, ?_⟩
  · intro i w hw
    rcases hclass i w hw with ⟨hreg, hw0⟩ | ⟨h1, h2, w0, hw0, hd0, rfl⟩
    · exact hB.place i w hw0
    · have hp0 := hB.place (i + 1) w0 hw0
      have hh := hp0.1
      have hd := hp0.2.1
      refine ⟨?_, ?_, hp0.2.2.1, hp0.2.2.2⟩
      · show homeIdx shift w0 + (w0.dist_from_des - 1) = i
        omega
      · show w0.dist_from_des - 1 < shift
        omega
  · intro i j hij w hw w2 hw2
    have hmap : ∀ i w, bs.getD i none = some w →
        ∃ i' w', bs0.getD i' none = some w' ∧ w'.key = w.key ∧
          (((i < p ∨ pos ≤ i) ∧ i' = i) ∨
            (p ≤ i ∧ i < pos - 1 ∧ i' = i + 1)) := by
      intro i w hw
      rcases hclass i w hw with ⟨hreg, hw0⟩ | ⟨h1, h2, w0, hw0, -, rfl⟩
      · exact ⟨i, w, hw0, rfl, Or.inl ⟨hreg, rfl⟩⟩
      · exact ⟨i + 1, w0, hw0, rfl, Or.inr ⟨h1, h2, rfl⟩⟩
    obtain ⟨i', w1', hw1', hk1, hcase1⟩ := hmap i w hw
    obtain ⟨j', w2', hw2', hk2, hcase2⟩ := hmap j w2 hw2
    have hne : i' ≠ j' := by omega
    have := hB.uniq i' j' hne w1' hw1' w2' hw2'
    rw [hk1, hk2] at this
    exact this
  · intro i w hw j hj1 hj2
    rcases hclass i w hw with ⟨hreg, hw0⟩ | ⟨h1, h2, w0, hw0, hd0, rfl⟩
    · rcases hreg with hip | hip
      · have hne : bs0.getD j none ≠ none := hB.gap i w hw0 j hj1 hj2
        rw [h.rlow j (by omega)]
        exact hne
      · have hhome := hhigh_home i w hip hw0
        have hne : bs0.getD j none ≠ none := hB.gap i w hw0 j hj1 hj2
        rw [h.rhigh j (by omega)]
        exact hne
    · have hp0 := hB.place (i + 1) w0 hw0
      have hh := hp0.1
      have hj1' : homeIdx shift w0 ≤ j := hj1
      rcases Nat.lt_or_ge j p with hjp | hjp
      · have hne : bs0.getD j none ≠ none :=
          hB.gap (i + 1) w0 hw0 j (by omega) (by omega)
        rw [h.rlow j hjp]
        exact hne
      · obtain ⟨wj, hwj, -, h3⟩ := h.rshift j hjp (by omega)
        rw [h3]
        exact fun hc => Option.noConfusion hc
  · intro j w hw w2 hw2
    rcases hclass j w hw with ⟨hregw, hw0⟩ | ⟨h1, h2, w0, hw0, -, rfl⟩ <;>
      rcases hclass (j + 1) w2 hw2 with ⟨hregw2, hw20⟩ |
        ⟨g1, g2, w20, hw20, -, rfl⟩
    · exact hB.ord j w hw0 w2 hw20
    · -- `w` original at `j`, `w2` shifted from `j + 2`: `j + 1 = p`
      have hjp : j + 1 = p := by omega
      have hvicj : bs0.getD (j + 1) none = some victim := by
        rw [hjp]
        exact hvic
      show homeIdx shift w ≤ homeIdx shift w20
      calc homeIdx shift w ≤ homeIdx shift victim :=
            hB.ord j w hw0 victim hvicj
        _ ≤ homeIdx shift w20 := hB.ord (j + 1) victim hvicj w20 hw20
    · exfalso
      omega
    · show homeIdx shift w0 ≤ homeIdx shift w20
      exact hB.ord (j + 1) w0 hw0 w20 hw20

/-- The back-shift loop reaches a structurally well-formed state and
moves entries without creating, destroying or altering any binding. -/
theorem backShift_sound {shift : Nat} {bs0 : List (Option Entry)}
    (hB : BucketsWF shift bs0) {p : Nat} {victim : Entry}
    (hvic : bs0.getD p none = some victim) :
    ∀ fuel bs pos, bs0.length ≤ fuel + pos → RInv bs0 p bs pos →
    BucketsWF shift (backShift bs0.length fuel bs pos) ∧
    (backShift bs0.length fuel bs pos).length = bs.length ∧
    countOcc (backShift bs0.length fuel bs pos) = countOcc bs ∧
    (∀ k d, inB (backShift bs0.length fuel bs pos) k d ↔ inB bs k d) := by
  intro fuel
  induction fuel with
  | zero =>
    intro bs pos hf h
    rw [backShift]
    exact ⟨rinv_wf hB hvic h (Or.inl (by omega)), rfl, rfl,
      fun k d => Iff.rfl⟩
  | succ fuel ih =>
    intro bs pos hf h
    have hrp := h.rpos
    have hrlen := h.rlen
    rw [backShift]
    by_cases hpl : pos < bs0.length
    · rw [if_pos hpl]
      rcases hslot : bs.getD pos none with _ | entry
      · exact ⟨rinv_wf hB hvic h (Or.inr (Or.inl hslot)), rfl, rfl,
          fun k d => Iff.rfl⟩
      · dsimp only
        by_cases hd0 : entry.dist_from_des = 0
        · rw [if_pos hd0]
          exact ⟨rinv_wf hB hvic h (Or.inr (Or.inr ⟨entry, hslot, hd0⟩)),
            rfl, rfl, fun k d => Iff.rfl⟩
        · rw [if_neg hd0]
          have hposlen : pos < bs.length := by omega
          have hp1len : pos - 1 < bs.length := by omega
          have hinv' : RInv bs0 p
              ((bs.set (pos - 1) (some { entry with
                dist_from_des := entry.dist_from_des - 1 })).set pos none)
              (pos + 1) := by
            refine ⟨by omega, ?_, ?_, ?_, ?_, ?_⟩
            · simp [hrlen]
            · have hsimp : pos + 1 - 1 = pos := by omega
              rw [hsimp, getD_set_self (by rw [List.length_set]; omega)]
            · intro j hj
              rw [getD_set_other (by omega), getD_set_other (by omega)]
              exact h.rlow j hj
            · intro j hj
              rw [getD_set_other (by omega), getD_set_other (by omega)]
              exact h.rhigh j (by omega)
            · intro j hj1 hj2
              rcases eq_or_ne j (pos - 1) with rfl | hjne
              · refine ⟨entry, ?_, by omega, ?_⟩
                · have hsimp : pos - 1 + 1 = pos := by omega
                  rw [hsimp, ← h.rhigh pos (Nat.le_refl _)]
                  exact hslot
                · rw [getD_set_other (by omega), getD_set_self hp1len]
              · have hj2' : j < pos - 1 := by omega
                obtain ⟨w0, h1, h2, h3⟩ := h.rshift j hj1 hj2'
                refine ⟨w0, h1, h2, ?_⟩
                rw [getD_set_other (by omega), getD_set_other (by omega)]
                exact h3
          have hnext := ih _ (pos + 1) (by omega) hinv'
          refine ⟨hnext.1, ?_, ?_, ?_⟩
          · rw [hnext.2.1]
            simp
          · rw [hnext.2.2.1]
            have h1 : countOcc (bs.set (pos - 1) (some { entry with
                dist_from_des := entry.dist_from_des - 1 })) =
                countOcc bs + 1 :=
              countOcc_set_none_some hp1len h.rhole
            have hgd : (bs.set (pos - 1) (some { entry with
                dist_from_des := entry.dist_from_des - 1 })).getD pos none =
                some entry := by
              rw [getD_set_other (by omega)]
              exact hslot
            have h2 := countOcc_set_some_none hgd
            omega
          · intro k d
            rw [hnext.2.2.2 k d]
            constructor
            · rintro ⟨i, w, hw, hk, hdd⟩
              rcases eq_or_ne i pos with rfl | hip
              · rw [getD_set_self (by rw [List.length_set]; omega)] at hw
                exact Option.noConfusion hw
              · rw [getD_set_other (Ne.symm hip)] at hw
                rcases eq_or_ne i (pos - 1) with rfl | hip1
                · rw [getD_set_self hp1len] at hw
                  cases hw
                  exact ⟨pos, entry, hslot, hk, hdd⟩
                · rw [getD_set_other (Ne.symm hip1)] at hw
                  exact ⟨i, w, hw, hk, hdd⟩
            · rintro ⟨i, w, hw, hk, hdd⟩
              rcases eq_or_ne i pos with hip | hip
              · rw [hip, hslot] at hw
                cases hw
                refine ⟨pos - 1, { entry with
                  dist_from_des := entry.dist_from_des - 1 }, ?_, hk, hdd⟩
                rw [getD_set_other (by omega), getD_set_self hp1len]
              · rcases eq_or_ne i (pos - 1) with rfl | hip1
                · rw [h.rhole] at hw
                  exact Option.noConfusion hw
                · refine ⟨i, w, ?_, hk, hdd⟩
                  rw [getD_set_other (Ne.symm hip), getD_set_other
                    (Ne.symm hip1)]
                  exact hw
    · rw [if_neg hpl]
      exact ⟨rinv_wf hB hvic h (Or.inl (by omega)), rfl, rfl,
        fun k d => Iff.rfl⟩

/-- Pointwise map removal. -/
def mapRemove (m : Key → Option Nat) (k : Key) : Key → Option Nat :=
  fun k' => if k' = k then none else m k'

/-- Rebuilding the correspondence after a removal: the new buckets hold
exactly the old bindings minus the removed key's. -/
theorem corr_remove {t : Table} {m : Key → Option Nat} (hold : Corr t m)
    {bs2 : List (Option Entry)} {key : Key} {sz : Nat}
    (hB2 : BucketsWF t.max_size_shift bs2)
    (hlen2 : bs2.length = t.buckets.length)
    (hsz : sz = countOcc bs2)
    (hiff : ∀ k d, inB bs2 k d ↔ (k ≠ key ∧ inB t.buckets k d)) :
    Corr { t with buckets := bs2, curr_size := sz } (mapRemove m key) := by
  obtain ⟨⟨hmax, hK0, hlen, hcount, -, -, -, -⟩, hfwd, hbwd⟩ := hold
  have hm_of_inB : ∀ k d, inB t.buckets k d → m k = some d := by
    rintro k d ⟨i, w, hw, hk, hd⟩
    have := hfwd i (lt_length_of_getD_some hw) w hw
    rw [hk, hd] at this
    exact this
  refine ⟨WF.of_parts hmax hK0 (hlen2.trans hlen) hsz hB2, ?_, ?_⟩
  · intro i _ w hw
    have hin : inB bs2 w.key w.data := ⟨i, w, hw, rfl, rfl⟩
    obtain ⟨hne, hin0⟩ := (hiff w.key w.data).mp hin
    rw [mapRemove]
    rw [if_neg hne]
    exact hm_of_inB _ _ hin0
  · intro k d hk
    rw [mapRemove] at hk
    by_cases hke : k = key
    · rw [if_pos hke] at hk
      exact Option.noConfusion hk
    · rw [if_neg hke] at hk
      obtain ⟨i, w, hw, hkw, hdw⟩ := hbwd k d hk
      have hin : inB bs2 k d := (hiff k d).mpr ⟨hke, ⟨i, w, hw, hkw, hdw⟩⟩
      obtain ⟨i2, w2, hw2, hkw2, hdw2⟩ := hin
      exact ⟨i2, w2, hw2, hkw2, hdw2⟩

/-- Soundness of the body of `hash_table_remove`: with the key absent the
call fails and leaves the table untouched; with the key present it
succeeds, removes exactly that binding, and decrements the size. -/
theorem removeCore_sound {t : Table} {m : Key → Option Nat} (hc : Corr t m)
    (key : Key) :
    (m key = none → removeCore t key = (false, t)) ∧
    (∀ d, m key = some d →
      (removeCore t key).1 = true ∧
      Corr (removeCore t key).2 (mapRemove m key) ∧
      (removeCore t key).2.curr_size + 1 = t.curr_size) := by
  have hwf := hc.1
  have hB := WF.bucketsWF hwf
  obtain ⟨hmax, hK0, hlen, hcount, hplace, huniq, hgap, hord⟩ := hwf
  have hK04 : 4 ≤ t.max_size_shift := hK0
  constructor
  · -- absent key
    intro hm
    rw [removeCore]
    obtain ⟨g1, g2, g3, g4, g5⟩ :=
      iterNext_general t.buckets t.max_size_shift key t.max_size_shift
        (hash_table_get_position t key) 0 (by omega) (by omega)
    rcases hr : iterNext t.buckets t.max_size_shift key t.max_size_shift
        (hash_table_get_position t key) 0 with ⟨pos', pc'⟩
    rw [hr] at g1 g2 g3 g4 g5
    dsimp only
    by_cases hfound : pc' < t.max_size_shift
    · rw [hash_table_is_next_found, if_pos (by simpa using hfound)]
      rcases g5 hfound with hnone | ⟨w, hw, hwk⟩
      · rw [hnone]
      · exfalso
        have := hc.2.1 pos' (lt_length_of_getD_some hw) w hw
        rw [hwk, hm] at this
        exact Option.noConfusion this
    · rw [hash_table_is_next_found, if_neg (by simpa using hfound)]
  · -- present key
    intro d hm
    obtain ⟨q, eqe, hq, hqk, hqd⟩ := hc.2.2 key d hm
    have hqlen := lt_length_of_getD_some hq
    obtain ⟨hhome, hdist, hhash, hvalid⟩ := hplace q hqlen eqe hq
    have hhomeq : homeIdx t.max_size_shift eqe =
        hash_table_get_position t key := by
      rw [homeIdx, hash_table_get_position, hhash, hqk]
    have hocc : ∀ j, hash_table_get_position t key ≤ j → j < q →
        ∃ w, t.buckets.getD j none = some w ∧ w.key ≠ key := by
      intro j h1 h2
      have hne : t.buckets.getD j none ≠ none := by
        apply hgap q hqlen eqe hq j (by omega)
        rw [hhomeq]
        exact h1
      rcases hj : t.buckets.getD j none with _ | w
      · exact absurd hj hne
      · refine ⟨w, rfl, ?_⟩
        intro hwk
        have := huniq j (lt_length_of_getD_some hj) q hqlen (by omega) w hj
          eqe hq
        rw [hwk, hqk] at this
        exact this rfl
    rw [removeCore]
    rw [iterNext_reaches t.buckets t.max_size_shift key
      (hash_table_get_position t key) q eqe hq hqk (by omega) hocc
      t.max_size_shift (hash_table_get_position t key) 0 rfl (by omega)
      (by omega)]
    dsimp only
    rw [hash_table_is_next_found, if_pos (by simp; omega), hq]
    dsimp only
    rw [hash_table_remove_from_position]
    rw [← hlen]
    have hinit : RInv t.buckets q (t.buckets.set q none) (q + 1) := by
      refine ⟨by omega, by simp, ?_, ?_, ?_, ?_⟩
      · show (t.buckets.set q none).getD q none = none
        rw [getD_set_self hqlen]
      · intro j hj
        rw [getD_set_other (by omega)]
      · intro j hj
        rw [getD_set_other (by omega)]
      · intro j h1 h2
        omega
    have hbs := backShift_sound hB hq t.buckets.length
      (t.buckets.set q none) (q + 1) (by omega) hinit
    obtain ⟨hBf, hlenf, hcntf, hifff⟩ := hbs
    have hcnt0 : countOcc t.buckets =
        countOcc (t.buckets.set q none) + 1 := countOcc_set_some_none hq
    have hset_iff : ∀ k' d', inB (t.buckets.set q none) k' d' ↔
        (k' ≠ key ∧ inB t.buckets k' d') := by
      intro k' d'
      constructor
      · rintro ⟨i, w, hw, hk, hd⟩
        have hiq : i ≠ q := by
          intro hiq
          rw [hiq, getD_set_self hqlen] at hw
          exact Option.noConfusion hw
        rw [getD_set_other (Ne.symm hiq)] at hw
        refine ⟨?_, ⟨i, w, hw, hk, hd⟩⟩
        intro hkk
        have := huniq i (lt_length_of_getD_some hw) q hqlen hiq w hw eqe hq
        rw [hk, hkk, hqk] at this
        exact this rfl
      · rintro ⟨hne, ⟨i, w, hw, hk, hd⟩⟩
        have hiq : i ≠ q := by
          intro hiq
          rw [hiq, hq] at hw
          cases hw
          exact hne (by rw [← hk, hqk])
        exact ⟨i, w, by rw [getD_set_other (Ne.symm hiq)]; exact hw, hk, hd⟩
    refine ⟨rfl, ?_, ?_⟩
    · refine corr_remove hc hBf ?_ ?_ ?_
      · rw [hlenf]
        simp
      · omega
      · intro k' d'
        rw [hifff k' d']
        exact hset_iff k' d'
    · show t.curr_size - 1 + 1 = t.curr_size
      omega

/-- `insertF_sound` specialised to successful allocation: the insertion
always reports success. -/
theorem insertF_sound_true {fuel : Nat} :
    ∀ ta macc e b t', Corr ta macc → e.dist_from_des = 0 →
    e.hash = djb2_hash e.key → ValidKey e.key →
    insertF fuel true ta e = some (b, t') →
    b = true ∧ Corr t' (mapUpdate macc e.key e.data) ∧
    (macc e.key = none → t'.curr_size = ta.curr_size + 1) := by
  intro ta macc e b t' h1 h2 h3 h4 h5
  have h := insertF_sound fuel true ta macc e b t' h1 h2 h3 h4 h5
  cases b with
  | false => exact absurd (h.1 rfl).1 (by simp)
  | true => exact ⟨rfl, (h.2 rfl).1, fun hn => (h.2 rfl).2.1 hn⟩

/-- Soundness of `hash_table_remove`: an absent key fails without
changing the observable state; a present key is removed with the size
decremented, unless the shrink step's allocation fails, in which case the
table is returned unchanged. -/
theorem hash_table_remove_sound {fuel : Nat} {alloc : Bool} {t : Table}
    {m : Key → Option Nat} {key : Key} {b : Bool} {t' : Table}
    (hc : Corr t m)
    (hres : hash_table_remove fuel alloc t key = some (b, t')) :
    (m key = none → b = false ∧ Corr t' m ∧ t'.curr_size = t.curr_size) ∧
    (∀ d, m key = some d →
      (b = false ∧ alloc = false ∧ t' = t) ∨
      (b = true ∧ Corr t' (mapRemove m key) ∧
        t'.curr_size + 1 = t.curr_size)) := by
  rw [hash_table_remove] at hres
  by_cases hfac : hash_table_should_resize_down_factor t = true
  · rw [if_pos hfac] at hres
    have hgt : HASH_TABLE_INITIAL_SHIFT < t.max_size_shift := by
      by_contra hle
      push_neg at hle
      rw [hash_table_should_resize_down_factor, if_pos hle] at hfac
      exact Bool.noConfusion hfac
    cases alloc with
    | false =>
      have hrz : hash_table_resize fuel false t (-1) = some (false, t) := rfl
      rw [hrz] at hres
      dsimp only at hres
      obtain ⟨rfl, rfl⟩ : b = false ∧ t' = t := by
        refine ⟨?_, ?_⟩ <;> cases hres <;> rfl
      refine ⟨fun _ => ⟨rfl, hc, rfl⟩, fun d _ => Or.inl ⟨rfl, rfl, rfl⟩⟩
    | true =>
      rcases hrz : hash_table_resize fuel true t (-1) with _ | p
      · rw [hrz] at hres
        exact Option.noConfusion hres
      · rcases p with ⟨b2, t2⟩
        rw [hrz] at hres
        have hrz' : resizeGo (insertF fuel true) true t (-1) =
            some (b2, t2) := hrz
        obtain ⟨hb2, hcorr2, hsz2⟩ :=
          resizeGo_sound insertF_sound_true hc (Or.inr ⟨rfl, hgt⟩) hrz'
        subst hb2
        dsimp only at hres
        injection hres with h2
        obtain ⟨hnone, hsome⟩ := removeCore_sound hcorr2 key
        constructor
        · intro hm
          have h3 := hnone hm
          rw [h2] at h3
          injection h3 with hb ht
          subst hb
          subst ht
          exact ⟨rfl, hcorr2, hsz2⟩
        · intro d hm
          obtain ⟨hb, hco, hsz⟩ := hsome d hm
          rw [h2] at hb hco hsz
          dsimp only at hb hco hsz
          refine Or.inr ⟨hb, hco, ?_⟩
          omega
  · rw [if_neg hfac] at hres
    injection hres with h2
    obtain ⟨hnone, hsome⟩ := removeCore_sound hc key
    constructor
    · intro hm
      have h3 := hnone hm
      rw [h2] at h3
      injection h3 with hb ht
      subst hb
      subst ht
      exact ⟨rfl, hc, rfl⟩
    · intro d hm
      obtain ⟨hb, hco, hsz⟩ := hsome d hm
      rw [h2] at hb hco hsz
      dsimp only at hb hco hsz
      exact Or.inr ⟨hb, hco, hsz⟩

/-- Soundness of `hash_table_add` with successful allocations: the call
reports ok and the table corresponds to the updated map, with the size
incremented exactly when the key was fresh. -/
theorem hash_table_add_sound {fuel : Nat} {t : Table}
    {m : Key → Option Nat} {key : Key} {data : Nat} {b : Bool} {t' : Table}
    (hc : Corr t m) (hv : ValidKey key)
    (hres : hash_table_add fuel true t key data = some (b, t')) :
    b = true ∧ Corr t' (mapUpdate m key data) ∧
    (m key = none → t'.curr_size = t.curr_size + 1) ∧
    (m key ≠ none → t'.curr_size = t.curr_size) := by
  rw [hash_table_add, if_pos rfl] at hres
  by_cases hfac : hash_table_should_resize_up_factor t = true
  · rw [if_pos hfac] at hres
    rcases hrz : hash_table_resize fuel true t 1 with _ | p
    · rw [hrz] at hres
      exact Option.noConfusion hres
    · rcases p with ⟨b2, t2⟩
      rw [hrz] at hres
      have hrz' : resizeGo (insertF fuel true) true t 1 =
          some (b2, t2) := hrz
      obtain ⟨hb2, hcorr2, hsz2⟩ :=
        resizeGo_sound insertF_sound_true hc (Or.inl rfl) hrz'
      subst hb2
      dsimp only at hres
      have h := insertF_sound fuel true t2 m
        (hash_table_entry_create key data) b t' hcorr2 rfl rfl hv hres
      cases b with
      | false => exact absurd (h.1 rfl).1 (by simp)
      | true =>
        obtain ⟨hco, hs1, hs2⟩ := h.2 rfl
        refine ⟨rfl, hco, ?_, ?_⟩
        · intro hn
          rw [hs1 hn, hsz2]
        · intro hn
          rw [hs2 hn, hsz2]
  · rw [if_neg hfac] at hres
    have h := insertF_sound fuel true t m
      (hash_table_entry_create key data) b t' hc rfl rfl hv hres
    cases b with
    | false => exact absurd (h.1 rfl).1 (by simp)
    | true => exact ⟨rfl, (h.2 rfl).1, (h.2 rfl).2.1, (h.2 rfl).2.2⟩

/-! ## Reachable states -/

/-- Correspondence of the freshly created table. -/
theorem corr_create : Corr hash_table_create (fun _ => none) :=
  @corr_empty HASH_TABLE_INITIAL_SHIFT (1 <<< HASH_TABLE_INITIAL_SHIFT)
    (by decide) (by decide)

/-- Table states reachable by the public operations (creation, then any
sequence of completed `hash_table_add` / `hash_table_remove` calls,
successful or not), together with the abstract map of live bindings. -/
inductive Reach : Table → (Key → Option Nat) → Prop where
  | create : Reach hash_table_create (fun _ => none)
  | add {t : Table} {m : Key → Option Nat} {fuel : Nat} {key : Key}
      {data : Nat} {b : Bool} {t' : Table} :
      Reach t m → ValidKey key →
      hash_table_add fuel true t key data = some (b, t') →
      Reach t' (mapUpdate m key data)
  | add_fail {t : Table} {m : Key → Option Nat} {fuel : Nat} {key : Key}
      {data : Nat} {b : Bool} {t' : Table} :
      Reach t m →
      hash_table_add fuel false t key data = some (b, t') →
      Reach t' m
  | remove_hit {t : Table} {m : Key → Option Nat} {fuel : Nat}
      {alloc : Bool} {key : Key} {t' : Table} :
      Reach t m →
      hash_table_remove fuel alloc t key = some (true, t') →
      Reach t' (mapRemove m key)
  | remove_miss {t : Table} {m : Key → Option Nat} {fuel : Nat}
      {alloc : Bool} {key : Key} {t' : Table} :
      Reach t m →
      hash_table_remove fuel alloc t key = some (false, t') →
      Reach t' m

/-- Every reachable state corresponds to its abstract map. -/
theorem Reach_corr {t : Table} {m : Key → Option Nat} (h : Reach t m) :
    Corr t m := by
  induction h with
  | create => exact corr_create
  | @add t m fuel key data b t' hr hv hadd ih =>
    exact (hash_table_add_sound ih hv hadd).2.1
  | @add_fail t m fuel key data b t' hr hadd ih =>
    have h0 : hash_table_add fuel false t key data = some (false, t) := by
      rw [hash_table_add, if_neg Bool.false_ne_true]
    rw [h0] at hadd
    obtain ⟨rfl, rfl⟩ : b = false ∧ t' = t := by
      refine ⟨?_, ?_⟩ <;> cases hadd <;> rfl
    exact ih
  | @remove_hit t m fuel alloc key t' hr hrem ih =>
    obtain ⟨hnone, hsome⟩ := hash_table_remove_sound ih hrem
    rcases hm : m key with _ | d
    · exact absurd (hnone hm).1 (by simp)
    · rcases hsome d hm with ⟨hb, -, -⟩ | ⟨-, hco, -⟩
      · exact absurd hb (by simp)
      · exact hco
  | @remove_miss t m fuel alloc key t' hr hrem ih =>
    obtain ⟨hnone, hsome⟩ := hash_table_remove_sound ih hrem
    rcases hm : m key with _ | d
    · exact (hnone hm).2.1
    · rcases hsome d hm with ⟨-, -, rfl⟩ | ⟨hb, -, -⟩
      · exact ih
      · exact absurd hb (by simp)

/-! ## Operation sequences -/

/-- A sequence of `hash_table_add` calls (successful allocations). -/
def runAdds (fuel : Nat) : Table → List (Key × Nat) → Option Table
  | t, [] => some t
  | t, (k, d) :: rest =>
    match hash_table_add fuel true t k d with
    | none => none
    | some (_, t') => runAdds fuel t' rest

/-- A sequence of `hash_table_remove` calls (successful allocations). -/
def runRemoves (fuel : Nat) : Table → List Key → Option Table
  | t, [] => some t
  | t, k :: rest =>
    match hash_table_remove fuel true t k with
    | none => none
    | some (_, t') => runRemoves fuel t' rest

theorem runAdds_reach {fuel : Nat} :
    ∀ adds t m, Reach t m → (∀ kd ∈ adds, ValidKey kd.1) →
    ∀ t', runAdds fuel t adds = some t' →
    Reach t' (adds.foldl (fun m kd => mapUpdate m kd.1 kd.2) m) := by
  intro adds
  induction adds with
  | nil =>
    intro t m hr _ t' hres
    cases hres
    exact hr
  | cons kd rest ih =>
    intro t m hr hval t' hres
    rcases kd with ⟨k, d⟩
    rw [runAdds] at hres
    rcases hadd : hash_table_add fuel true t k d with _ | p
    · rw [hadd] at hres
      exact Option.noConfusion hres
    · rcases p with ⟨b, t2⟩
      rw [hadd] at hres
      dsimp only at hres
      exact ih t2 (mapUpdate m k d)
        (Reach.add hr (hval (k, d) (List.mem_cons_self _ _)) hadd)
        (fun kd hkd => hval kd (List.mem_cons_of_mem _ hkd)) t' hres

theorem runRemoves_corr {fuel : Nat} :
    ∀ rems t m, Corr t m → ∀ t', runRemoves fuel t rems = some t' →
    Corr t' (rems.foldl mapRemove m) := by
  intro rems
  induction rems with
  | nil =>
    intro t m hc t' hres
    cases hres
    exact hc
  | cons k rest ih =>
    intro t m hc t' hres
    rw [runRemoves] at hres
    rcases hrem : hash_table_remove fuel true t k with _ | p
    · rw [hrem] at hres
      exact Option.noConfusion hres
    · rcases p with ⟨b, t2⟩
      rw [hrem] at hres
      dsimp only at hres
      obtain ⟨hnone, hsome⟩ := hash_table_remove_sound hc hrem
      have hc2 : Corr t2 (mapRemove m k) := by
        rcases hm : m k with _ | d
        · refine corr_congr (hnone hm).2.1 ?_
          intro k'
          rw [mapRemove]
          by_cases hk' : k' = k
          · rw [if_pos hk', hk', hm]
          · rw [if_neg hk']
        · rcases hsome d hm with ⟨-, hfalse, -⟩ | ⟨-, hco, -⟩
          · exact absurd hfalse (by simp)
          · exact hco
      exact ih t2 (mapRemove m k) hc2 t' hres

theorem foldl_mapRemove (rems : List Key) :
    ∀ m k, (rems.foldl mapRemove m) k =
      if k ∈ rems then none else m k := by
  induction rems with
  | nil =>
    intro m k
    simp
  | cons r rest ih =>
    intro m k
    rw [List.foldl_cons, ih]
    by_cases hk : k ∈ rest
    · rw [if_pos hk, if_pos (List.mem_cons_of_mem _ hk)]
    · rw [if_neg hk]
      by_cases hkr : k = r
      · rw [mapRemove, if_pos hkr, if_pos (by rw [hkr]; exact List.mem_cons_self _ _)]
      · rw [mapRemove, if_neg hkr, if_neg (by
          intro hmem
          rcases List.mem_cons.mp hmem with h | h
          · exact hkr h
          · exact hk h)]

theorem foldl_mapUpdate_not_mem (adds : List (Key × Nat)) :
    ∀ m k, k ∉ adds.map Prod.fst →
    (adds.foldl (fun m kd => mapUpdate m kd.1 kd.2) m) k = m k := by
  induction adds with
  | nil =>
    intro m k _
    rfl
  | cons kd rest ih =>
    intro m k hk
    rw [List.foldl_cons, ih _ k (fun hmem => hk (by
      rw [List.map_cons]
      exact List.mem_cons_of_mem _ hmem))]
    rw [mapUpdate, if_neg (fun hkk => hk (by
      rw [List.map_cons, hkk]
      exact List.mem_cons_self _ _))]

/-- The insertion walk's position and probe count move in lock step and
the probe count never passes the window. -/
theorem insertWalk_pos (shift : Nat) (key : Key) :
    ∀ fuel bs c pos pc, pc ≤ shift →
    (insertWalk shift key fuel bs c pos pc).2.2.1 ≤ shift ∧
    pc ≤ (insertWalk shift key fuel bs c pos pc).2.2.1 ∧
    (insertWalk shift key fuel bs c pos pc).2.1 =
      pos + ((insertWalk shift key fuel bs c pos pc).2.2.1 - pc) := by
  intro fuel
  induction fuel with
  | zero =>
    intro bs c pos pc hpc
    rw [insertWalk]
    dsimp only
    exact ⟨hpc, Nat.le_refl _, by omega⟩
  | succ fuel ih =>
    intro bs c pos pc hpc
    rw [insertWalk]
    by_cases hlt : pc < shift
    · rw [if_pos hlt]
      rcases hslot : bs.getD pos none with _ | cur
      · dsimp only
        exact ⟨hpc, Nat.le_refl _, by omega⟩
      · dsimp only
        by_cases hkey : cur.key = key
        · rw [if_pos hkey]
          dsimp only
          exact ⟨hpc, Nat.le_refl _, by omega⟩
        · rw [if_neg hkey]
          by_cases hrep : hash_table_should_replace_entry c cur = true
          · rw [if_pos hrep]
            obtain ⟨h1, h2, h3⟩ := ih (bs.set pos (some c))
              { cur with dist_from_des := cur.dist_from_des + 1 }
              (pos + 1) (pc + 1) (by omega)
            exact ⟨h1, by omega, by omega⟩
          · rw [if_neg hrep]
            obtain ⟨h1, h2, h3⟩ := ih bs
              { c with dist_from_des := c.dist_from_des + 1 }
              (pos + 1) (pc + 1) (by omega)
            exact ⟨h1, by omega, by omega⟩
    · rw [if_neg hlt]
      dsimp only
      exact ⟨hpc, Nat.le_refl _, by omega⟩

/-! ## The claims -/

/-- C1: on every table state reachable by the public operations, `get`
returns, for any key last added with payload `p` and not subsequently
removed (that is, any key bound to `p` in the abstract map of live
bindings), exactly that payload. -/
theorem get_returns_last_payload {t : Table} {m : Key → Option Nat}
    (h : Reach t m) {k : Key} {p : Nat} (hm : m k = some p) :
    hash_table_get t k = p := by
  rw [get_of_corr (Reach_corr h) k, hm]
  rfl

/-- C2: when the insertion walk exhausts the probe window (probe count
reaches `max_size_shift` without placement) and the grow's allocation
fails, the unwind restores the slot array to exactly its pre-insertion
contents and the insertion surfaces `false` with the table unchanged (so
size and every lookup are unmutated). -/
theorem insert_unwind_restores {t : Table} {m : Key → Option Nat}
    (hc : Corr t m) {e : Entry} (hd : e.dist_from_des = 0)
    (hh : e.hash = djb2_hash e.key) (hv : ValidKey e.key)
    {bs1 : List (Option Entry)} {pos1 : Nat} {rich : Entry}
    (hwalk : insertWalk t.max_size_shift e.key t.max_size_shift t.buckets e
      (fibonacci_hash e.hash t.max_size_shift) 0 =
      (bs1, pos1, t.max_size_shift, rich)) (fuel : Nat) :
    unwindFrom e bs1 rich (pos1 - 1) = t.buckets ∧
    insertF (fuel + 1) false t e = some (false, t) := by
  have hwf := hc.1
  have hB := WF.bucketsWF hwf
  obtain ⟨hmax, hK0, hlen, hcount, hplace, -, -, -⟩ := hwf
  have hK04 : 4 ≤ t.max_size_shift := hK0
  have hp0len : homeIdx t.max_size_shift e + t.max_size_shift ≤
      t.buckets.length := by
    have hfib : homeIdx t.max_size_shift e < 2 ^ t.max_size_shift :=
      fibonacci_hash_lt e.hash t.max_size_shift
    omega
  have hwalk' : insertWalk t.max_size_shift e.key t.max_size_shift t.buckets
      e (homeIdx t.max_size_shift e) 0 =
      (bs1, pos1, t.max_size_shift, rich) := hwalk
  have hpos1 : pos1 = homeIdx t.max_size_shift e + t.max_size_shift := by
    obtain ⟨g1, g2, g3⟩ := insertWalk_pos t.max_size_shift e.key
      t.max_size_shift t.buckets e (homeIdx t.max_size_shift e) 0
      (by omega)
    rw [hwalk'] at g1 g2 g3
    dsimp only at g1 g2 g3
    omega
  have huw : unwindFrom e bs1 rich
      (homeIdx t.max_size_shift e + t.max_size_shift - 1) = t.buckets := by
    have h := insertWalk_unwind hp0len hB.place (by omega)
      t.max_size_shift t.buckets e (homeIdx t.max_size_shift e) 0
      (by omega) (UInv.init hB hd hh hv) bs1 pos1 rich hwalk'
    rw [if_pos rfl] at h
    exact h
  refine ⟨?_, ?_⟩
  · rw [hpos1]
    exact huw
  · simp only [insertF]
    rw [hwalk]
    dsimp only
    rw [if_neg (by
      simp only [hash_table_is_next_found, decide_eq_true_eq]
      omega)]
    rw [hpos1, huw]
    rfl

/-- C3: on every reachable table state, every occupied slot's entry sits
exactly at its home index (derived from the stored digest and
`max_size_shift`) plus its displacement, and the displacement is strictly
below `max_size_shift`. -/
theorem placement_invariant {t : Table} {m : Key → Option Nat}
    (h : Reach t m) {i : Nat} {e : Entry}
    (he : t.buckets.getD i none = some e) :
    fibonacci_hash e.hash t.max_size_shift + e.dist_from_des = i ∧
    e.dist_from_des < t.max_size_shift := by
  have hB := WF.bucketsWF (Reach_corr h).1
  have hp := hB.place i e he
  exact ⟨hp.1, hp.2.1⟩

/-- C4: adding a key that is already present succeeds, replaces the
stored payload, and leaves the size unchanged; afterwards `get` returns
the new payload. -/
theorem add_replaces_payload {t : Table} {m : Key → Option Nat}
    (h : Reach t m) {key : Key} {data d0 : Nat} {fuel : Nat} {b : Bool}
    {t' : Table} (hv : ValidKey key) (hm : m key = some d0)
    (hres : hash_table_add fuel true t key data = some (b, t')) :
    b = true ∧ hash_table_get t' key = data ∧
    hash_table_get_size t' = hash_table_get_size t := by
  obtain ⟨hb, hco, -, hs2⟩ := hash_table_add_sound (Reach_corr h) hv hres
  refine ⟨hb, ?_, ?_⟩
  · rw [get_of_corr hco key]
    rw [mapUpdate, if_pos rfl]
    rfl
  · exact hs2 (by rw [hm]; exact fun hc => Option.noConfusion hc)

/-- C5: inserting any list of valid keys into a fresh table and then
removing every inserted key (in any order, possibly with extra removals)
leaves the size at `0`, makes every lookup return `NULL`, and keeps the
probe-window exponent at least the initial `4`. -/
theorem round_trip_empties {fuel : Nat} {adds : List (Key × Nat)}
    {rems : List Key} {t1 t2 : Table}
    (hval : ∀ kd ∈ adds, ValidKey kd.1)
    (hcov : ∀ k, k ∈ adds.map Prod.fst → k ∈ rems)
    (h1 : runAdds fuel hash_table_create adds = some t1)
    (h2 : runRemoves fuel t1 rems = some t2) :
    hash_table_get_size t2 = 0 ∧ (∀ k, hash_table_get t2 k = 0) ∧
    HASH_TABLE_INITIAL_SHIFT ≤ t2.max_size_shift := by
  have hr1 := runAdds_reach adds hash_table_create (fun _ => none)
    Reach.create hval t1 h1
  have hc2 := runRemoves_corr rems t1 _ (Reach_corr hr1) t2 h2
  have hfinal : ∀ k, (rems.foldl mapRemove
      (adds.foldl (fun m kd => mapUpdate m kd.1 kd.2)
        (fun _ => none)) ) k = none := by
    intro k
    rw [foldl_mapRemove]
    by_cases hk : k ∈ rems
    · rw [if_pos hk]
    · rw [if_neg hk]
      have hnk : k ∉ adds.map Prod.fst := fun hmem => hk (hcov k hmem)
      rw [foldl_mapUpdate_not_mem adds _ k hnk]
  have hwf2 := hc2.1
  have hfwd2 := hc2.2.1
  refine ⟨?_, ?_, hwf2.2.1⟩
  · have hempty : ∀ i, i < t2.buckets.length →
        t2.buckets.getD i none = none := by
      intro i hi
      rcases hsl : t2.buckets.getD i none with _ | w
      · rfl
      · exfalso
        have := hfwd2 i hi w hsl
        rw [hfinal w.key] at this
        exact Option.noConfusion this
    rw [hash_table_get_size, hwf2.2.2.2.1, countOcc_eq_zero]
    exact hempty
  · intro k
    rw [get_of_corr hc2 k, hfinal k]
    rfl

/-- The back-shift loop performs no step once its cursor is at or past
the limit. -/
theorem backShift_out (limit : Nat) :
    ∀ fuel bs pos, limit ≤ pos → backShift limit fuel bs pos = bs := by
  intro fuel
  induction fuel with
  | zero =>
    intro bs pos _
    rw [backShift]
  | succ fuel ih =>
    intro bs pos h
    rw [backShift, if_neg (by omega)]

/-- The back-shift loop never writes a slot at or past the limit. -/
theorem backShift_frame (limit : Nat) :
    ∀ fuel bs pos j, limit ≤ j →
    (backShift limit fuel bs pos).getD j none = bs.getD j none := by
  intro fuel
  induction fuel with
  | zero =>
    intro bs pos j _
    rw [backShift]
  | succ fuel ih =>
    intro bs pos j hj
    rw [backShift]
    by_cases hpl : pos < limit
    · rw [if_pos hpl]
      rcases hslot : bs.getD pos none with _ | entry
      · rfl
      · dsimp only
        by_cases hd0 : entry.dist_from_des = 0
        · rw [if_pos hd0]
        · rw [if_neg hd0]
          rw [ih _ (pos + 1) j hj]
          rw [getD_set_other (by omega), getD_set_other (by omega)]
    · rw [if_neg hpl]

/-- The back-shift loop never reads a slot at or past the limit: its
effect on the slots below the limit depends only on the slots below the
limit. -/
theorem backShift_reads (limit : Nat) :
    ∀ fuel bs bs2 pos, bs.length = bs2.length →
    (∀ j, j < limit → bs.getD j none = bs2.getD j none) →
    ∀ j, j < limit →
    (backShift limit fuel bs pos).getD j none =
      (backShift limit fuel bs2 pos).getD j none := by
  intro fuel
  induction fuel with
  | zero =>
    intro bs bs2 pos _ hagree j hj
    rw [backShift, backShift]
    exact hagree j hj
  | succ fuel ih =>
    intro bs bs2 pos hlen hagree j hj
    rw [backShift, backShift]
    by_cases hpl : pos < limit
    · rw [if_pos hpl, if_pos hpl]
      have hpos_eq : bs.getD pos none = bs2.getD pos none := hagree pos hpl
      rcases hslot : bs.getD pos none with _ | entry
      · rw [← hpos_eq, hslot]
        exact hagree j hj
      · rw [← hpos_eq, hslot]
        dsimp only
        by_cases hd0 : entry.dist_from_des = 0
        · rw [if_pos hd0, if_pos hd0]
          exact hagree j hj
        · rw [if_neg hd0, if_neg hd0]
          have hposlen : pos < bs.length := lt_length_of_getD_some hslot
          apply ih
          · simp [hlen]
          · intro j2 hj2
            rcases eq_or_ne j2 pos with rfl | hne
            · rw [getD_set_self (by rw [List.length_set]; omega),
                getD_set_self (by rw [List.length_set]; omega)]
            · rw [getD_set_other (Ne.symm hne),
                getD_set_other (Ne.symm hne)]
              rcases eq_or_ne j2 (pos - 1) with rfl | hne1
              · rw [getD_set_self (by omega), getD_set_self (by omega)]
              · rw [getD_set_other (Ne.symm hne1),
                  getD_set_other (Ne.symm hne1)]
                exact hagree j2 hj2
          · exact hj
    · rw [if_neg hpl, if_neg hpl]
      exact hagree j hj

/-- C8: every probe position of the lookup/removal walk and the insertionwalk stays strictly below `max_size + max_size_shift`, the length of the
allocated slot array; any probe of up to `max_size_shift` slots from any
home index stays within the allocation; and the back-shift loop of
removal performs no step once its cursor reaches that length, never
writes a slot at or beyond it, and never reads one (its effect below the
limit depends only on the slots below the limit).  So no walk crosses
the end of the slot array and no wrap-around occurs. -/
theorem probe_within_allocation {t : Table} (hwf : WF t) (key : Key)
    (e : Entry) :
    (∀ hsh : Nat, fibonacci_hash hsh t.max_size_shift + t.max_size_shift <
      (hash_table_buckets_alloc t).length) ∧
    (iterNext t.buckets t.max_size_shift key t.max_size_shift
      (hash_table_get_position t key) 0).1 <
      t.max_size + t.max_size_shift ∧
    (insertWalk t.max_size_shift e.key t.max_size_shift t.buckets e
      (fibonacci_hash e.hash t.max_size_shift) 0).2.1 <
      t.max_size + t.max_size_shift ∧
    (∀ fuel bs pos, t.max_size + t.max_size_shift ≤ pos →
      backShift (t.max_size + t.max_size_shift) fuel bs pos = bs) ∧
    (∀ fuel bs pos j, t.max_size + t.max_size_shift ≤ j →
      (backShift (t.max_size + t.max_size_shift) fuel bs pos).getD j
        none = bs.getD j none) ∧
    (∀ fuel bs bs2 pos, bs.length = bs2.length →
      (∀ j, j < t.max_size + t.max_size_shift →
        bs.getD j none = bs2.getD j none) →
      ∀ j, j < t.max_size + t.max_size_shift →
      (backShift (t.max_size + t.max_size_shift) fuel bs pos).getD j
        none =
      (backShift (t.max_size + t.max_size_shift) fuel bs2 pos).getD j
        none) := by
  obtain ⟨hmax, hK0, hlen, -, -, -, -, -⟩ := hwf
  have hK04 : 4 ≤ t.max_size_shift := hK0
  refine ⟨?_, ?_, ?_, backShift_out _, backShift_frame _,
    backShift_reads _⟩
  · intro hsh
    have hfib : fibonacci_hash hsh t.max_size_shift <
        2 ^ t.max_size_shift := fibonacci_hash_lt hsh t.max_size_shift
    rw [hash_table_buckets_alloc, List.length_replicate]
    omega
  · obtain ⟨g1, g2, g3, -, -⟩ :=
      iterNext_general t.buckets t.max_size_shift key t.max_size_shift
        (hash_table_get_position t key) 0 (by omega) (by omega)
    have hpos0 : hash_table_get_position t key < 2 ^ t.max_size_shift :=
      fibonacci_hash_lt _ _
    omega
  · obtain ⟨g1, g2, g3⟩ := insertWalk_pos t.max_size_shift e.key
      t.max_size_shift t.buckets e (fibonacci_hash e.hash t.max_size_shift)
      0 (by omega)
    have hpos0 : fibonacci_hash e.hash t.max_size_shift <
        2 ^ t.max_size_shift := fibonacci_hash_lt _ _
    omega

/-- C9: `get` returns `NULL` both for an absent key and for a key stored
with payload `NULL`: lookups cannot distinguish the two. -/
theorem get_null_conflation {t : Table} {m : Key → Option Nat}
    (h : Reach t m) (k : Key) :
    hash_table_get t k = 0 ↔ (m k = none ∨ m k = some 0) := by
  rw [get_of_corr (Reach_corr h) k]
  rcases hm : m k with _ | d
  · simp
  · simp

/-- C10: the empty string is accepted as a key: adding it succeeds (no
non-emptiness check exists) and a subsequent `get` of the empty string
returns the stored payload. -/
theorem add_empty_key {t : Table} {m : Key → Option Nat} (h : Reach t m)
    {fuel : Nat} {data : Nat} {b : Bool} {t' : Table}
    (hres : hash_table_add fuel true t [] data = some (b, t')) :
    b = true ∧ hash_table_get t' [] = data := by
  have hv : ValidKey ([] : Key) := by
    intro c hc
    cases hc
  obtain ⟨hb, hco, -, -⟩ := hash_table_add_sound (Reach_corr h) hv hres
  refine ⟨hb, ?_⟩
  rw [get_of_corr hco []]
  rw [mapUpdate, if_pos rfl]
  rfl

/-! ## Concrete states for the witnesses -/

/-- The table after adding key "k1" with payload `5` to a fresh table. -/
def tK1 : Table :=
  ((hash_table_add 1 true hash_table_create [107, 49] 5).getD
    (false, hash_table_create)).2

/-- `tK1` after adding the same key again with payload `8`. -/
def tK1b : Table :=
  ((hash_table_add 1 true tK1 [107, 49] 8).getD
    (false, hash_table_create)).2

/-- Four keys with the same home slot `3` (at the initial exponent `4`),
added one after the other: they fill slots `3`..`6`, leaving no room in
the probe window of a fifth key with the same home. -/
def tB1 : Table :=
  ((hash_table_add 1 true hash_table_create [97, 97] 1).getD
    (false, hash_table_create)).2

def tB2 : Table :=
  ((hash_table_add 1 true tB1 [97, 110] 2).getD
    (false, hash_table_create)).2

def tB3 : Table :=
  ((hash_table_add 1 true tB2 [97, 118] 3).getD
    (false, hash_table_create)).2

def tB4 : Table :=
  ((hash_table_add 1 true tB3 [98, 98] 4).getD
    (false, hash_table_create)).2

/-- A fifth entry whose home slot is also `3`. -/
def eProbe : Entry := hash_table_entry_create [98, 119] 9

/-- Two adds then the two removals, in reversed order. -/
def tAdds : Table :=
  (runAdds 1 hash_table_create [([97, 97], 1), ([98, 98], 2)]).getD
    hash_table_create

def tRound : Table :=
  (runRemoves 1 tAdds [[98, 98], [97, 97]]).getD hash_table_create

/-- The table after adding key "k1" with payload `NULL`. -/
def tZero : Table :=
  ((hash_table_add 1 true hash_table_create [107, 49] 0).getD
    (false, hash_table_create)).2

/-- The table after adding the empty key with payload `7`. -/
def tEmpty : Table :=
  ((hash_table_add 1 true hash_table_create [] 7).getD
    (false, hash_table_create)).2

/-- C1, witnessed: after adding "k1" ↦ 5 to a fresh table, `get` returns
`5`. -/
theorem get_returns_last_payload_witness :
    hash_table_get tK1 [107, 49] = 5 :=
  get_returns_last_payload
    (Reach.add Reach.create (by decide)
      (show hash_table_add 1 true hash_table_create [107, 49] 5 =
        some (true, tK1) from by rfl))
    (by rfl)

/-- C2, witnessed: on the table holding four keys with home slot `3`, a
fifth same-home insertion exhausts the probe window; with allocation
failing, the unwind returns exactly the pre-insertion buckets and the
insertion returns `false` with the table unchanged. -/
theorem insert_unwind_restores_witness :
    unwindFrom eProbe
      (insertWalk 4 [98, 119] 4 tB4.buckets eProbe
        (fibonacci_hash (djb2_hash [98, 119]) 4) 0).1
      (insertWalk 4 [98, 119] 4 tB4.buckets eProbe
        (fibonacci_hash (djb2_hash [98, 119]) 4) 0).2.2.2
      ((insertWalk 4 [98, 119] 4 tB4.buckets eProbe
        (fibonacci_hash (djb2_hash [98, 119]) 4) 0).2.1 - 1) =
      tB4.buckets ∧
    insertF 1 false tB4 eProbe = some (false, tB4) :=
  insert_unwind_restores
    (Reach_corr
      (Reach.add
        (Reach.add
          (Reach.add
            (Reach.add Reach.create (by decide)
              (show hash_table_add 1 true hash_table_create [97, 97] 1 =
                some (true, tB1) from by rfl))
            (by decide)
            (show hash_table_add 1 true tB1 [97, 110] 2 =
              some (true, tB2) from by rfl))
          (by decide)
          (show hash_table_add 1 true tB2 [97, 118] 3 =
            some (true, tB3) from by rfl))
        (by decide)
        (show hash_table_add 1 true tB3 [98, 98] 4 =
          some (true, tB4) from by rfl)))
    rfl rfl (by decide)
    (show insertWalk tB4.max_size_shift eProbe.key tB4.max_size_shift
        tB4.buckets eProbe (fibonacci_hash eProbe.hash tB4.max_size_shift)
        0 =
      ((insertWalk 4 [98, 119] 4 tB4.buckets eProbe
          (fibonacci_hash (djb2_hash [98, 119]) 4) 0).1,
        (insertWalk 4 [98, 119] 4 tB4.buckets eProbe
          (fibonacci_hash (djb2_hash [98, 119]) 4) 0).2.1,
        tB4.max_size_shift,
        (insertWalk 4 [98, 119] 4 tB4.buckets eProbe
          (fibonacci_hash (djb2_hash [98, 119]) 4) 0).2.2.2) from by rfl)
    0

/-- C3, witnessed: in the one-entry table, the stored entry sits at slot
`7`, its home index, with displacement `0 < 4`. -/
theorem placement_invariant_witness :
    fibonacci_hash (hash_table_entry_create [107, 49] 5).hash
        tK1.max_size_shift +
      (hash_table_entry_create [107, 49] 5).dist_from_des = 7 ∧
    (hash_table_entry_create [107, 49] 5).dist_from_des <
      tK1.max_size_shift :=
  placement_invariant
    (Reach.add Reach.create (by decide)
      (show hash_table_add 1 true hash_table_create [107, 49] 5 =
        some (true, tK1) from by rfl))
    (show tK1.buckets.getD 7 none =
      some (hash_table_entry_create [107, 49] 5) from by rfl)

/-- C4, witnessed: re-adding "k1" with payload `8` succeeds, `get` then
returns `8`, and the size is unchanged. -/
theorem add_replaces_payload_witness :
    true = true ∧ hash_table_get tK1b [107, 49] = 8 ∧
    hash_table_get_size tK1b = hash_table_get_size tK1 :=
  add_replaces_payload
    (Reach.add Reach.create (by decide)
      (show hash_table_add 1 true hash_table_create [107, 49] 5 =
        some (true, tK1) from by rfl))
    (by decide) (by rfl)
    (show hash_table_add 1 true tK1 [107, 49] 8 =
      some (true, tK1b) from by rfl)

/-- C5, witnessed: adding two keys then removing both leaves the table
empty with the initial probe-window exponent. -/
theorem round_trip_empties_witness :
    hash_table_get_size tRound = 0 ∧
    (∀ k, hash_table_get tRound k = 0) ∧
    HASH_TABLE_INITIAL_SHIFT ≤ tRound.max_size_shift :=
  round_trip_empties (by decide)
    (by
      intro k hk
      simp only [List.map_cons, List.map_nil] at hk
      rcases List.mem_cons.mp hk with h | h
      · rw [h]
        exact List.mem_cons_of_mem _ (List.mem_cons_self _ _)
      · rcases List.mem_cons.mp h with h2 | h2
        · rw [h2]
          exact List.mem_cons_self _ _
        · exact absurd h2 (List.not_mem_nil k))
    (show runAdds 1 hash_table_create [([97, 97], 1), ([98, 98], 2)] =
      some tAdds from by rfl)
    (show runRemoves 1 tAdds [[98, 98], [97, 97]] =
      some tRound from by rfl)

/-- C8, witnessed at the fresh table: every home index probed forward by
the full window stays inside the allocation, and both walks' final
positions are inside it. -/
theorem probe_within_allocation_witness :
    (∀ hsh : Nat,
      fibonacci_hash hsh hash_table_create.max_size_shift +
        hash_table_create.max_size_shift <
      (hash_table_buckets_alloc hash_table_create).length) ∧
    (iterNext hash_table_create.buckets hash_table_create.max_size_shift
      [107, 49] hash_table_create.max_size_shift
      (hash_table_get_position hash_table_create [107, 49]) 0).1 <
      hash_table_create.max_size + hash_table_create.max_size_shift ∧
    (insertWalk hash_table_create.max_size_shift
      (hash_table_entry_create [107, 49] 5).key
      hash_table_create.max_size_shift hash_table_create.buckets
      (hash_table_entry_create [107, 49] 5)
      (fibonacci_hash (hash_table_entry_create [107, 49] 5).hash
        hash_table_create.max_size_shift) 0).2.1 <
      hash_table_create.max_size + hash_table_create.max_size_shift ∧
    backShift
      (hash_table_create.max_size + hash_table_create.max_size_shift) 20
      hash_table_create.buckets 20 = hash_table_create.buckets ∧
    (backShift
      (hash_table_create.max_size + hash_table_create.max_size_shift) 20
      hash_table_create.buckets 5).getD 25 none =
      hash_table_create.buckets.getD 25 none ∧
    (backShift
      (hash_table_create.max_size + hash_table_create.max_size_shift) 20
      hash_table_create.buckets 0).getD 3 none =
      (backShift
        (hash_table_create.max_size + hash_table_create.max_size_shift) 20
        hash_table_create.buckets 0).getD 3 none := by
  have h := probe_within_allocation (show WF hash_table_create by decide)
    [107, 49] (hash_table_entry_create [107, 49] 5)
  exact ⟨h.1, h.2.1, h.2.2.1,
    h.2.2.2.1 20 hash_table_create.buckets 20 (by decide),
    h.2.2.2.2.1 20 hash_table_create.buckets 5 25 (by decide),
    h.2.2.2.2.2 20 hash_table_create.buckets hash_table_create.buckets 0
      rfl (fun j _ => rfl) 3 (by decide)⟩

/-- C9, witnessed: with "k1" stored with payload `NULL`, `get` returns
`NULL` exactly as for an absent key. -/
theorem get_null_conflation_witness :
    hash_table_get tZero [107, 49] = 0 ↔
      (mapUpdate (fun _ => none) [107, 49] 0 [107, 49] = none ∨
       mapUpdate (fun _ => none) [107, 49] 0 [107, 49] = some 0) :=
  get_null_conflation
    (Reach.add Reach.create (by decide)
      (show hash_table_add 1 true hash_table_create [107, 49] 0 =
        some (true, tZero) from by rfl))
    [107, 49]

/-- C10, witnessed: adding the empty key with payload `7` to a fresh
table succeeds and `get ""` returns `7`. -/
theorem add_empty_key_witness :
    true = true ∧ hash_table_get tEmpty [] = 7 :=
  add_empty_key Reach.create
    (show hash_table_add 1 true hash_table_create [] 7 =
      some (true, tEmpty) from by rfl)
